import Mathlib

/-!
The module argparse: a verification development.

Shallow embedding of `src/argparse.cpp` (G. Henning, 2013): six linear scans
over the `(argc, argv)` pair of a C program.

Conventions of the embedding

* A C string is the list of its characters before the terminating NUL, so the
  list holds no NUL; the terminator is implicit, and reading one position past
  the last character yields it.
* A `const char*` is an `Option`: `none` is the null pointer.
* Undefined behaviour of the C program (reading through a null pointer,
  indexing `argv` past its end, storing past the end of a heap block, reading
  an indeterminate value) is an explicit `Fault`; every operation returns
  `Except Fault _`.
* `for (int n = n0; n < argc; n++)` becomes a recursion on the number of
  iterations left, `argc - n0`, with the index `n` carried along.
* The C library is the environment: `malloc` is a parameter telling whether a
  request of a given size succeeds, and the scan-template function `sscanf`
  is a parameter of the three keyed-scalar queries.
-/

namespace Argparse

/-! ## Data model -/

/-- The characters of a C string, terminator excluded. -/
abbrev CStr := List Char

/-- A `const char*`: `none` is `NULL`. -/
abbrev CPtr := Option CStr

/-- Undefined behaviour reached by the C code. -/
inductive Fault where
  /-- a read through a null pointer -/
  | nullDeref
  /-- a read of `argv[n]` with `n` outside the vector -/
  | argvOutOfBounds
  /-- a store at slot `index` of a heap block of `capacity` slots, `capacity ≤ index` -/
  | storeOutOfBounds (index capacity : Nat)
  /-- the value of a local variable read before anything was stored in it -/
  | indeterminateRead
  /-- the scan template and the supplied output argument do not fit -/
  | badFormat
  /-- a scanned number that the receiving C type cannot represent -/
  | unrepresentable
  /-- a read of `p[i]` past the terminator of the string `p` designates -/
  | stringOutOfBounds
  deriving DecidableEq, Repr

deriving instance DecidableEq for Except

/-- The read `argv[n]`. -/
def readArgv (argv : List CPtr) (n : Nat) : Except Fault CPtr :=
  match argv[n]? with
  | some p => .ok p
  | none => .error .argvOutOfBounds

/-- Reading the string a pointer designates. -/
def deref (p : CPtr) : Except Fault CStr :=
  match p with
  | some s => .ok s
  | none => .error .nullDeref

/-- The read `p[i]` for a pointer to a C string: position `length` holds the
terminating NUL, the positions beyond are outside the string. -/
def charAt (p : CPtr) (i : Nat) : Except Fault Char :=
  match p with
  | some s => if i ≤ s.length then .ok (s.getD i (Char.ofNat 0)) else .error .stringOutOfBounds
  | none => .error .nullDeref

/-! ## The C library -/

/-- The libc `strcmp`, on the characters before the terminator: the sign of
the difference at the first position where the strings differ, the implicit
terminator being smaller than every character. -/
def strcmp : CStr → CStr → Int
  | [], [] => 0
  | [], _ :: _ => -1
  | _ :: _, [] => 1
  | a :: as, b :: bs =>
    if a = b then strcmp as bs
    else if a.toNat < b.toNat then -1 else 1

/-! ## ParseFlag -/

/-- The loop of `ParseFlag`: `left` iterations remain, `n` is the index. -/
def ParseFlag.loop (argv : List CPtr) (flag : CPtr) : Nat → Nat → Except Fault Int
  | 0, _ => .ok 0
  | left + 1, n =>
    match readArgv argv n with
    | .error e => .error e
    | .ok p =>
      match deref p with
      | .error e => .error e
      | .ok s =>
        match deref flag with
        | .error e => .error e
        | .ok f =>
          if strcmp s f = 0 then .ok 1
          else ParseFlag.loop argv flag left (n + 1)

/-- The function `const int ParseFlag(const int argc, const char* argv[],
const char* flag)`. -/
def ParseFlag (argc : Int) (argv : List CPtr) (flag : CPtr) : Except Fault Int :=
  ParseFlag.loop argv flag argc.toNat 0

/-! ## The scan-template interface -/

/-- What one call `sscanf(s, fmt, out)` with a single output argument does:
the value it returns (the number of items assigned, or `EOF = -1`) and what
it stored through `out`, if anything. -/
structure ScanResult (α : Type) where
  ret : Int
  stored : Option α
  deriving DecidableEq, Repr

/-- A scan function for output arguments of type `α`, applied to the token and
to the template; a call whose behaviour C leaves undefined is a fault. -/
abbrev Scanner (α : Type) := CStr → CStr → Except Fault (ScanResult α)

/-- The content of `*out` after a call: the stored value, or the old content
when the call stored nothing. `none` is an indeterminate content. -/
def afterScan {α : Type} (r : ScanResult α) (old : Option α) : Option α :=
  match r.stored with
  | some v => some v
  | none => old

/-! ## A model of `sscanf`

The theorems on the keyed-scalar queries hold for every scan function. For
the concrete command lines of the specification the templates it names are
needed: a literal key followed by one placeholder, `--num=%d`, `--name=%s`.
-/

/-- A value stored by a conversion: `%d` stores an `int`, `%s` a C string. -/
inductive Val where
  | int (v : Int)
  | str (s : CStr)
  deriving DecidableEq, Repr

/-- The libc `isspace` in the C locale. -/
def isspace (c : Char) : Bool :=
  c = ' ' || (9 ≤ c.toNat && c.toNat ≤ 13)

/-- The libc `isdigit`. -/
def isdigit (c : Char) : Bool :=
  48 ≤ c.toNat && c.toNat ≤ 57

/-- The number of conversion specifications of a template. -/
def conversions : CStr → Nat
  | [] => 0
  | c :: fmt =>
    if c = '%' then
      match fmt with
      | [] => 1
      | _ :: rest => 1 + conversions rest
    else conversions fmt

/-- The outcome of one conversion on the input that is left. -/
inductive Conversion where
  /-- the input ended before a character of the item was read -/
  | inputFailure
  /-- the item read is not of the expected form -/
  | matchingFailure
  /-- the converted value and the input after the item -/
  | converted (v : Val) (rest : CStr)
  deriving DecidableEq, Repr

/-- The decimal value of a run of digits. -/
def digitsValue (ds : CStr) : Nat :=
  ds.foldl (fun acc d => 10 * acc + (d.toNat - 48)) 0

/-- The conversion `%d`: white space is skipped, then an optional sign and a
non-empty run of decimal digits are read; the value has to fit an `int`. -/
def convertD (input : CStr) : Except Fault Conversion :=
  match input.dropWhile isspace with
  | [] => .ok .inputFailure
  | c :: cs =>
    let body := if c = '-' ∨ c = '+' then cs else c :: cs
    let ds := body.takeWhile isdigit
    if ds = [] then .ok .matchingFailure
    else
      let v : Int := if c = '-' then -(digitsValue ds : Int) else (digitsValue ds : Int)
      if -2 ^ 31 ≤ v ∧ v < 2 ^ 31 then .ok (.converted (.int v) (body.dropWhile isdigit))
      else .error .unrepresentable

/-- The conversion `%s`: white space is skipped, then the run of characters up
to the next white space or the end is read. -/
def convertS (input : CStr) : Conversion :=
  match input.dropWhile isspace with
  | [] => .inputFailure
  | c :: cs =>
    .converted (.str ((c :: cs).takeWhile (fun x => !isspace x)))
      ((c :: cs).dropWhile (fun x => !isspace x))

/-- The value `sscanf` returns when it stops: the number of items assigned,
or `EOF` on an input failure before the first conversion is complete. -/
def scanStop (assigned : Option Val) (inputFailure : Bool) : ScanResult Val :=
  match assigned with
  | some v => ⟨1, some v⟩
  | none => ⟨if inputFailure then -1 else 0, none⟩

/-- The directives of a template, run in order on the input: white space in
the template skips white space of the input, `%d` and `%s` convert, any other
character has to be the next character of the input. -/
def sscanf.run : CStr → CStr → Option Val → Except Fault (ScanResult Val)
  | [], _, assigned => .ok (scanStop assigned false)
  | c :: fmt, input, assigned =>
    if c = '%' then
      match fmt with
      | [] => .error .badFormat
      | k :: rest =>
        match assigned with
        | some _ => .error .badFormat
        | none =>
          if k = 'd' then
            match convertD input with
            | .error e => .error e
            | .ok .inputFailure => .ok (scanStop none true)
            | .ok .matchingFailure => .ok (scanStop none false)
            | .ok (.converted v input1) => sscanf.run rest input1 (some v)
          else if k = 's' then
            match convertS input with
            | .inputFailure => .ok (scanStop none true)
            | .matchingFailure => .ok (scanStop none false)
            | .converted v input1 => sscanf.run rest input1 (some v)
          else .error .badFormat
    else if isspace c then sscanf.run fmt (input.dropWhile isspace) assigned
    else
      match input with
      | [] => .ok (scanStop assigned true)
      | i :: input1 =>
        if i = c then sscanf.run fmt input1 assigned
        else .ok (scanStop assigned false)

/-- Modelled from the spec: the scan-template mechanism, the libc function
`sscanf`, is not under src/. The call `sscanf(s, fmt, out)` with one output
argument, for templates made of ordinary characters, white space and at most
one of the placeholders `%d` and `%s` (ISO C, 7.21.6.2); a template with
another conversion, or with more conversions than the one output argument, is
a fault. -/
def sscanf (s fmt : CStr) : Except Fault (ScanResult Val) :=
  if 1 < conversions fmt then .error .badFormat
  else sscanf.run fmt s none

/-- The call `sscanf(s, fmt, &retval)` with `int retval`. -/
def sscanfInt : Scanner Int := fun s fmt =>
  match sscanf s fmt with
  | .error e => .error e
  | .ok ⟨ret, none⟩ => .ok ⟨ret, none⟩
  | .ok ⟨ret, some (.int v)⟩ => .ok ⟨ret, some v⟩
  | .ok ⟨_, some (.str _)⟩ => .error .badFormat

/-- The call `sscanf(s, fmt, retval)` with `char* retval`. -/
def sscanfStr : Scanner CStr := fun s fmt =>
  match sscanf s fmt with
  | .error e => .error e
  | .ok ⟨ret, none⟩ => .ok ⟨ret, none⟩
  | .ok ⟨ret, some (.str t)⟩ => .ok ⟨ret, some t⟩
  | .ok ⟨_, some (.int _)⟩ => .error .badFormat

/-! ## ParseInt -/

/-- The loop of `ParseInt`; `retval` is the content of the local `int retval`,
`none` while nothing has been stored in it. The `return orelse` that follows
the loop is its exit. -/
def ParseInt.loop (scan : Scanner Int) (argv : List CPtr) (arg : CPtr) (orelse : Int) :
    Nat → Nat → Option Int → Except Fault Int
  | 0, _, _ => .ok orelse
  | left + 1, n, retval =>
    match readArgv argv n with
    | .error e => .error e
    | .ok p =>
      match deref p with
      | .error e => .error e
      | .ok s =>
        match deref arg with
        | .error e => .error e
        | .ok f =>
          match scan s f with
          | .error e => .error e
          | .ok r =>
            if r.ret = 1 then
              match afterScan r retval with
              | some v => .ok v
              | none => .error .indeterminateRead
            else ParseInt.loop scan argv arg orelse left (n + 1) (afterScan r retval)

/-- The function `const int ParseInt(const int argc, const char* argv[], const char* arg,
const int orelse)`, over the scan function `scan` standing for `sscanf` with
an `int*` output. -/
def ParseInt (scan : Scanner Int) (argc : Int) (argv : List CPtr) (arg : CPtr)
    (orelse : Int) : Except Fault Int :=
  ParseInt.loop scan argv arg orelse argc.toNat 0 none

/-! ## ParseString -/

/-- The number of `char` units `ParseString` requests: `1024*sizeof(char)`. -/
def bufferUnits : Nat := 1024

/-- The store of a scanned text and its terminator into the 1024-unit buffer
`retval`; `buf` is the C string the buffer holds, `none` while nothing has
been stored. A text of more than 1023 characters runs past the block. -/
def storeText (r : ScanResult CStr) (buf : Option CStr) : Except Fault (Option CStr) :=
  match r.stored with
  | none => .ok buf
  | some t =>
    if t.length + 1 ≤ bufferUnits then .ok (some t)
    else .error (.storeOutOfBounds bufferUnits bufferUnits)

/-- The pointer `ParseString` returns. -/
inductive StringResult where
  /-- the pointer `orelse` of the caller, itself -/
  | default (orelse : CPtr)
  /-- the block obtained from `malloc`, holding the C string `text`
  (`none`: nothing was stored in the block) -/
  | buffer (text : Option CStr)
  deriving DecidableEq, Repr

/-- The effect of a call of `ParseString`: the pointer returned and the number
of blocks the call obtained from `malloc` (the module releases none). -/
structure StringOutcome where
  result : StringResult
  allocated : Nat
  deriving DecidableEq, Repr

/-- The loop of `ParseString`, entered once `retval` designates a block. -/
def ParseString.loop (scan : Scanner CStr) (argv : List CPtr) (arg orelse : CPtr) :
    Nat → Nat → Option CStr → Except Fault StringResult
  | 0, _, _ => .ok (.default orelse)
  | left + 1, n, buf =>
    match readArgv argv n with
    | .error e => .error e
    | .ok p =>
      match deref p with
      | .error e => .error e
      | .ok s =>
        match deref arg with
        | .error e => .error e
        | .ok f =>
          match scan s f with
          | .error e => .error e
          | .ok r =>
            match storeText r buf with
            | .error e => .error e
            | .ok buf1 =>
              if r.ret = 1 then .ok (.buffer buf1)
              else ParseString.loop scan argv arg orelse left (n + 1) buf1

/-- The function `const char* ParseString(const int argc, const char* argv[], const char*
arg, const char* orelse)`: `malloc bytes` tells whether the request succeeds,
`scan` stands for `sscanf` with a `char*` output. -/
def ParseString (malloc : Nat → Bool) (scan : Scanner CStr) (argc : Int)
    (argv : List CPtr) (arg orelse : CPtr) : Except Fault StringOutcome :=
  if malloc (bufferUnits * 1) then
    match ParseString.loop scan argv arg orelse argc.toNat 0 none with
    | .error e => .error e
    | .ok r => .ok ⟨r, 1⟩
  else .ok ⟨.default orelse, 0⟩

/-! ## CountArgs -/

/-- The loop of `CountArgs`. The condition is `argv[n][0]!='-' && argv[n]!=NULL`:
the left operand, a read through `argv[n]`, is evaluated first. -/
def CountArgs.loop (argv : List CPtr) : Nat → Nat → Int → Except Fault Int
  | 0, _, retval => .ok retval
  | left + 1, n, retval =>
    match readArgv argv n with
    | .error e => .error e
    | .ok p =>
      match charAt p 0 with
      | .error e => .error e
      | .ok c =>
        if c ≠ '-' ∧ p ≠ none then CountArgs.loop argv left (n + 1) (retval + 1)
        else CountArgs.loop argv left (n + 1) retval

/-- The function `const int CountArgs(const int argc, const char* argv[])`. -/
def CountArgs (argc : Int) (argv : List CPtr) : Except Fault Int :=
  CountArgs.loop argv (argc - 1).toNat 1 0

/-! ## GetArgs -/

/-- A heap block of `const char*` slots; a slot never written is `none`. -/
abbrev Block := List (Option CPtr)

/-- The store `b[i] = v`. -/
def Block.store (b : Block) (i : Nat) (v : CPtr) : Except Fault Block :=
  if i < b.length then .ok (b.set i (some v))
  else .error (.storeOutOfBounds i b.length)

/-- The size of a pointer, `sizeof(char*)`, on an LP64 platform. -/
def pointerSize : Nat := 8

/-- The request `ArgCount * sizeof(char*)`, computed in the 64-bit unsigned
type `size_t`. -/
def requestBytes (ArgCount : Int) : Nat :=
  ((ArgCount * pointerSize) % 2 ^ 64).toNat

/-- The loop of `GetArgs`: `k` is `n_arg_array`, `b` the block `arg_array`. -/
def GetArgs.loop (argv : List CPtr) : Nat → Nat → Nat → Block → Except Fault (Nat × Block)
  | 0, _, k, b => .ok (k, b)
  | left + 1, n, k, b =>
    match readArgv argv n with
    | .error e => .error e
    | .ok p =>
      match charAt p 0 with
      | .error e => .error e
      | .ok c =>
        if c ≠ '-' ∧ p ≠ none then
          match b.store k p with
          | .error e => .error e
          | .ok b1 => GetArgs.loop argv left (n + 1) (k + 1) b1
        else GetArgs.loop argv left (n + 1) k b

/-- The function `const char** GetArgs(const int argc, const char* argv[], const int
ArgCount)`: the result is `none` for the `NULL` return, else the block. -/
def GetArgs (malloc : Nat → Bool) (argc : Int) (argv : List CPtr) (ArgCount : Int) :
    Except Fault (Option Block) :=
  if malloc (requestBytes ArgCount) then
    match GetArgs.loop argv (argc - 1).toNat 1 0
        (List.replicate (requestBytes ArgCount / pointerSize) none) with
    | .error e => .error e
    | .ok (_, b) => .ok (some b)
  else .ok none

/-! ## ParseFloat -/

/-- The loop of `ParseFloat`; `F` stands for the C type `float`, whose values
the function only moves: from the scan into the local `float retval`, and from
there, or from `orelse`, to the caller. -/
def ParseFloat.loop {F : Type} (scan : Scanner F) (argv : List CPtr) (arg : CPtr)
    (orelse : F) : Nat → Nat → Option F → Except Fault F
  | 0, _, _ => .ok orelse
  | left + 1, n, retval =>
    match readArgv argv n with
    | .error e => .error e
    | .ok p =>
      match deref p with
      | .error e => .error e
      | .ok s =>
        match deref arg with
        | .error e => .error e
        | .ok f =>
          match scan s f with
          | .error e => .error e
          | .ok r =>
            if r.ret = 1 then
              match afterScan r retval with
              | some v => .ok v
              | none => .error .indeterminateRead
            else ParseFloat.loop scan argv arg orelse left (n + 1) (afterScan r retval)

/-- The function `const float ParseFloat(const int argc, const char* argv[],
const char* arg, const float orelse)`, over the scan function `scan` standing
for `sscanf` with a `float*` output. -/
def ParseFloat {F : Type} (scan : Scanner F) (argc : Int) (argv : List CPtr) (arg : CPtr)
    (orelse : F) : Except Fault F :=
  ParseFloat.loop scan argv arg orelse argc.toNat 0 none

/-! ## The stores of GetArgs -/

/-- The stores `arg_array[n_arg_array++] = argv[n]` that the loop of `GetArgs`
executes, in order, each as the pair of the index written and the pointer
stored; `k` is `n_arg_array`. The loop never consults the size of the block. -/
def GetArgs.stores (argv : List CPtr) : Nat → Nat → Nat → Except Fault (List (Nat × CPtr))
  | 0, _, _ => .ok []
  | left + 1, n, k =>
    match readArgv argv n with
    | .error e => .error e
    | .ok p =>
      match charAt p 0 with
      | .error e => .error e
      | .ok c =>
        if c ≠ '-' ∧ p ≠ none then
          match GetArgs.stores argv left (n + 1) (k + 1) with
          | .error e => .error e
          | .ok ws => .ok ((k, p) :: ws)
        else GetArgs.stores argv left (n + 1) k

/-- The stores a call of `GetArgs` executes: none when the allocation fails,
the call returning before its loop, else those of the loop. -/
def GetArgs.writes (malloc : Nat → Bool) (argc : Int) (argv : List CPtr) (ArgCount : Int) :
    Except Fault (List (Nat × CPtr)) :=
  if malloc (requestBytes ArgCount) then GetArgs.stores argv (argc - 1).toNat 1 0
  else .ok []

/-- The stores of a list performed on a block, in order. -/
def Block.replay (b : Block) : List (Nat × CPtr) → Except Fault Block
  | [] => .ok b
  | (i, v) :: ws =>
    match b.store i v with
    | .error e => .error e
    | .ok b1 => Block.replay b1 ws

/-- The number of `char` units a scan writes through its `char*` output: the
text and its terminator. -/
def unitsStored (r : ScanResult CStr) : Nat :=
  match r.stored with
  | some t => t.length + 1
  | none => 0

/-! ## The program on an explicit memory

The six functions once more, over the memory of the C program: the argument
vector, its tokens, the patterns and the blocks of the heap are objects of one
memory, which every call receives and hands on. What a call shares with the
calls before it is this memory and the number of calls of `malloc` made so
far; the functions have no static variable.
-/

/-- An address: the number of an object of the memory. -/
abbrev Addr := Nat

/-- A pointer value: `none` is `NULL`. -/
abbrev Ptr := Option Addr

/-- An object of the memory: an array of `units` chars holding the C string
`text` (`none`: nothing stored in it yet), or an array of `const char*` whose
slots never written are `none`. -/
inductive Obj where
  | chars (units : Nat) (text : Option CStr)
  | pointers (slots : List (Option Ptr))
  deriving DecidableEq, Repr

/-- The memory: the object at address `a` is the element number `a`. -/
abbrev Mem := List Obj

/-- The read `a[n]` in an array of pointers. -/
def loadSlot (mem : Mem) (a : Addr) (n : Nat) : Except Fault Ptr :=
  match mem[a]? with
  | some (.pointers slots) =>
    match slots[n]? with
    | some (some p) => .ok p
    | some none => .error .indeterminateRead
    | none => .error .argvOutOfBounds
  | _ => .error .argvOutOfBounds

/-- Reading the C string a pointer designates. -/
def loadString (mem : Mem) (p : Ptr) : Except Fault CStr :=
  match p with
  | none => .error .nullDeref
  | some a =>
    match mem[a]? with
    | some (.chars _ (some s)) => .ok s
    | some (.chars _ none) => .error .indeterminateRead
    | _ => .error .stringOutOfBounds

/-- The read `p[i]` in the C string a pointer designates. -/
def loadChar (mem : Mem) (p : Ptr) (i : Nat) : Except Fault Char :=
  match loadString mem p with
  | .error e => .error e
  | .ok s => if i ≤ s.length then .ok (s.getD i (Char.ofNat 0)) else .error .stringOutOfBounds

/-- The store, through the `char*` `out`, of what a scan stored: the text and
its terminator. -/
def storeChars (mem : Mem) (out : Addr) (r : ScanResult CStr) : Except Fault Mem :=
  match r.stored with
  | none => .ok mem
  | some t =>
    match mem[out]? with
    | some (.chars units _) =>
      if t.length + 1 ≤ units then .ok (mem.set out (.chars units (some t)))
      else .error (.storeOutOfBounds units units)
    | _ => .error .stringOutOfBounds

/-- The store `block[k] = p` in an array of pointers. -/
def storeSlot (mem : Mem) (block : Addr) (k : Nat) (p : Ptr) : Except Fault Mem :=
  match mem[block]? with
  | some (.pointers slots) =>
    if k < slots.length then .ok (mem.set block (.pointers (slots.set k (some p))))
    else .error (.storeOutOfBounds k slots.length)
  | _ => .error .argvOutOfBounds

/-- The loop of `ParseFlag` on the memory. -/
def OnMem.ParseFlag.loop (mem : Mem) (argv : Addr) (flag : Ptr) :
    Nat → Nat → Except Fault Int
  | 0, _ => .ok 0
  | left + 1, n =>
    match loadSlot mem argv n with
    | .error e => .error e
    | .ok p =>
      match loadString mem p with
      | .error e => .error e
      | .ok s =>
        match loadString mem flag with
        | .error e => .error e
        | .ok f =>
          if strcmp s f = 0 then .ok 1
          else OnMem.ParseFlag.loop mem argv flag left (n + 1)

/-- The function `ParseFlag` on the memory; it has no store, the memory after
the call is the memory before. -/
def OnMem.ParseFlag (mem : Mem) (argc : Int) (argv : Addr) (flag : Ptr) :
    Except Fault (Int × Mem) :=
  match OnMem.ParseFlag.loop mem argv flag argc.toNat 0 with
  | .error e => .error e
  | .ok v => .ok (v, mem)

/-- The loop of `ParseInt` and of `ParseFloat` on the memory; `retval` is a
local variable, outside the memory. -/
def OnMem.ParseValue.loop {α : Type} (scan : Scanner α) (mem : Mem) (argv : Addr)
    (arg : Ptr) (orelse : α) : Nat → Nat → Option α → Except Fault α
  | 0, _, _ => .ok orelse
  | left + 1, n, retval =>
    match loadSlot mem argv n with
    | .error e => .error e
    | .ok p =>
      match loadString mem p with
      | .error e => .error e
      | .ok s =>
        match loadString mem arg with
        | .error e => .error e
        | .ok f =>
          match scan s f with
          | .error e => .error e
          | .ok r =>
            if r.ret = 1 then
              match afterScan r retval with
              | some v => .ok v
              | none => .error .indeterminateRead
            else OnMem.ParseValue.loop scan mem argv arg orelse left (n + 1)
              (afterScan r retval)

/-- The function `ParseInt` on the memory; it has no store. -/
def OnMem.ParseInt (scan : Scanner Int) (mem : Mem) (argc : Int) (argv : Addr) (arg : Ptr)
    (orelse : Int) : Except Fault (Int × Mem) :=
  match OnMem.ParseValue.loop scan mem argv arg orelse argc.toNat 0 none with
  | .error e => .error e
  | .ok v => .ok (v, mem)

/-- The function `ParseFloat` on the memory; it has no store. -/
def OnMem.ParseFloat {F : Type} (scan : Scanner F) (mem : Mem) (argc : Int) (argv : Addr)
    (arg : Ptr) (orelse : F) : Except Fault (F × Mem) :=
  match OnMem.ParseValue.loop scan mem argv arg orelse argc.toNat 0 none with
  | .error e => .error e
  | .ok v => .ok (v, mem)

/-- The loop of `ParseString` on the memory: `retval` is the address of the
block obtained from `malloc`, into which every scan stores. -/
def OnMem.ParseString.loop (scan : Scanner CStr) (argv : Addr) (arg orelse : Ptr)
    (retval : Addr) : Nat → Nat → Mem → Except Fault (Ptr × Mem)
  | 0, _, mem => .ok (orelse, mem)
  | left + 1, n, mem =>
    match loadSlot mem argv n with
    | .error e => .error e
    | .ok p =>
      match loadString mem p with
      | .error e => .error e
      | .ok s =>
        match loadString mem arg with
        | .error e => .error e
        | .ok f =>
          match scan s f with
          | .error e => .error e
          | .ok r =>
            match storeChars mem retval r with
            | .error e => .error e
            | .ok mem1 =>
              if r.ret = 1 then .ok (some retval, mem1)
              else OnMem.ParseString.loop scan argv arg orelse retval left (n + 1) mem1

/-- The function `ParseString` on the memory: a successful `malloc` adds a block
of 1024 chars to the memory and returns its address. -/
def OnMem.ParseString (malloc : Nat → Bool) (scan : Scanner CStr) (mem : Mem) (argc : Int)
    (argv : Addr) (arg orelse : Ptr) : Except Fault (Ptr × Mem) :=
  if malloc (bufferUnits * 1) then
    OnMem.ParseString.loop scan argv arg orelse mem.length argc.toNat 0
      (mem ++ [.chars bufferUnits none])
  else .ok (orelse, mem)

/-- The loop of `CountArgs` on the memory. -/
def OnMem.CountArgs.loop (mem : Mem) (argv : Addr) : Nat → Nat → Int → Except Fault Int
  | 0, _, retval => .ok retval
  | left + 1, n, retval =>
    match loadSlot mem argv n with
    | .error e => .error e
    | .ok p =>
      match loadChar mem p 0 with
      | .error e => .error e
      | .ok c =>
        if c ≠ '-' ∧ p ≠ none then OnMem.CountArgs.loop mem argv left (n + 1) (retval + 1)
        else OnMem.CountArgs.loop mem argv left (n + 1) retval

/-- The function `CountArgs` on the memory; it has no store. -/
def OnMem.CountArgs (mem : Mem) (argc : Int) (argv : Addr) : Except Fault (Int × Mem) :=
  match OnMem.CountArgs.loop mem argv (argc - 1).toNat 1 0 with
  | .error e => .error e
  | .ok v => .ok (v, mem)

/-- The loop of `GetArgs` on the memory: `block` is the address of `arg_array`. -/
def OnMem.GetArgs.loop (argv : Addr) (block : Addr) : Nat → Nat → Nat → Mem → Except Fault Mem
  | 0, _, _, mem => .ok mem
  | left + 1, n, k, mem =>
    match loadSlot mem argv n with
    | .error e => .error e
    | .ok p =>
      match loadChar mem p 0 with
      | .error e => .error e
      | .ok c =>
        if c ≠ '-' ∧ p ≠ none then
          match storeSlot mem block k p with
          | .error e => .error e
          | .ok mem1 => OnMem.GetArgs.loop argv block left (n + 1) (k + 1) mem1
        else OnMem.GetArgs.loop argv block left (n + 1) k mem

/-- The function `GetArgs` on the memory: a successful `malloc` adds an array of
unwritten pointer slots to the memory and returns its address. -/
def OnMem.GetArgs (malloc : Nat → Bool) (mem : Mem) (argc : Int) (argv : Addr)
    (ArgCount : Int) : Except Fault (Ptr × Mem) :=
  if malloc (requestBytes ArgCount) then
    match OnMem.GetArgs.loop argv mem.length (argc - 1).toNat 1 0
        (mem ++ [.pointers (List.replicate (requestBytes ArgCount / pointerSize) none)]) with
    | .error e => .error e
    | .ok mem1 => .ok (some mem.length, mem1)
  else .ok (none, mem)

/-! ## Queries in sequence -/

/-- The C library of a run: the three scan functions, and whether the call
of `malloc` number `call` of the run, requesting `bytes`, succeeds. -/
structure Env (F : Type) where
  scanInt : Scanner Int
  scanFloat : Scanner F
  scanStr : Scanner CStr
  mallocOk : Nat → Nat → Bool

/-- A call of one of the six functions, with the pointers and numbers it is
given besides `argc` and `argv`. -/
inductive Call (F : Type) where
  | parseFlag (flag : Ptr)
  | parseInt (arg : Ptr) (orelse : Int)
  | parseFloat (arg : Ptr) (orelse : F)
  | parseString (arg orelse : Ptr)
  | countArgs
  | getArgs (ArgCount : Int)

/-- The value a call returns. -/
inductive Value (F : Type) where
  | int (v : Int)
  | float (v : F)
  | pointer (p : Ptr)
  deriving DecidableEq, Repr

/-- A call run after `calls` calls of `malloc` on the memory `mem`: the value
returned, the number of calls of `malloc` and the memory after it. -/
def Call.run {F : Type} (env : Env F) (argc : Int) (argv : Addr) (c : Call F)
    (calls : Nat) (mem : Mem) : Except Fault (Value F × Nat × Mem) :=
  match c with
  | .parseFlag flag =>
    match OnMem.ParseFlag mem argc argv flag with
    | .error e => .error e
    | .ok (v, mem1) => .ok (.int v, calls, mem1)
  | .parseInt arg orelse =>
    match OnMem.ParseInt env.scanInt mem argc argv arg orelse with
    | .error e => .error e
    | .ok (v, mem1) => .ok (.int v, calls, mem1)
  | .parseFloat arg orelse =>
    match OnMem.ParseFloat env.scanFloat mem argc argv arg orelse with
    | .error e => .error e
    | .ok (v, mem1) => .ok (.float v, calls, mem1)
  | .parseString arg orelse =>
    match OnMem.ParseString (env.mallocOk calls) env.scanStr mem argc argv arg orelse with
    | .error e => .error e
    | .ok (p, mem1) => .ok (.pointer p, calls + 1, mem1)
  | .countArgs =>
    match OnMem.CountArgs mem argc argv with
    | .error e => .error e
    | .ok (v, mem1) => .ok (.int v, calls, mem1)
  | .getArgs ArgCount =>
    match OnMem.GetArgs (env.mallocOk calls) mem argc argv ArgCount with
    | .error e => .error e
    | .ok (p, mem1) => .ok (.pointer p, calls + 1, mem1)

/-- The calls of a list run in order, each on the memory the one before left;
a fault ends the run. -/
def runCalls {F : Type} (env : Env F) (argc : Int) (argv : Addr) :
    List (Call F) → Nat → Mem → Except Fault (Nat × Mem)
  | [], calls, mem => .ok (calls, mem)
  | c :: cs, calls, mem =>
    match Call.run env argc argv c calls mem with
    | .error e => .error e
    | .ok (_, calls1, mem1) => runCalls env argc argv cs calls1 mem1

/-! ## The memory and the logical inputs -/

/-- The pointer `p` designates, in `mem`, the logical string `v`: both are null,
or `p` is the address of a char array holding the string. -/
def PointsTo (mem : Mem) (p : Ptr) (v : CPtr) : Prop :=
  (p = none ∧ v = none) ∨
  ∃ a units s, p = some a ∧ v = some s ∧ mem[a]? = some (.chars units (some s))

/-- The array at address `argv` holds, in `mem`, the argument vector `V`. -/
def HoldsVector (mem : Mem) (argv : Addr) (V : List CPtr) : Prop :=
  ∃ ps : List Ptr, mem[argv]? = some (.pointers (ps.map some)) ∧
    List.Forall₂ (PointsTo mem) ps V

/-- Every object of `mem` is, unchanged, an object of `mem1`. -/
def Extends (mem mem1 : Mem) : Prop :=
  ∀ (a : Addr) (obj : Obj), mem[a]? = some obj → mem1[a]? = some obj

/-- A query on the argument vector, with the logical values of its arguments. -/
inductive Query (F : Type) where
  | parseFlag (flag : CPtr)
  | parseInt (arg : CPtr) (orelse : Int)
  | parseFloat (arg : CPtr) (orelse : F)
  | parseString (arg orelse : CPtr)
  | countArgs
  | getArgs (ArgCount : Int)

/-- The arguments of the call `c` designate, in `mem`, those of the query `q`. -/
def HoldsQuery {F : Type} (mem : Mem) : Call F → Query F → Prop
  | .parseFlag flag, .parseFlag f => PointsTo mem flag f
  | .parseInt arg orelse, .parseInt a o => PointsTo mem arg a ∧ orelse = o
  | .parseFloat arg orelse, .parseFloat a o => PointsTo mem arg a ∧ orelse = o
  | .parseString arg orelse, .parseString a o => PointsTo mem arg a ∧ PointsTo mem orelse o
  | .countArgs, .countArgs => True
  | .getArgs ArgCount, .getArgs A => ArgCount = A
  | _, _ => False

/-- The size of the one request a query makes to `malloc`, if it makes one. -/
def Query.request {F : Type} : Query F → Option Nat
  | .parseString _ _ => some (bufferUnits * 1)
  | .getArgs ArgCount => some (requestBytes ArgCount)
  | _ => none

/-- The outcome of the allocation request of the query `q`, made as the call of
`malloc` number `calls`; a query without a request has none to fail. -/
def Query.allocOk {F : Type} (env : Env F) (q : Query F) (calls : Nat) : Bool :=
  match q.request with
  | some bytes => env.mallocOk calls bytes
  | none => true

/-- The logical result of a query. -/
inductive Logical (F : Type) where
  | int (v : Int)
  | float (v : F)
  | text (r : StringResult)
  | block (r : Option Block)

/-- The logical result of the query `q` on the vector `V`, as the functions on
logical vectors give it, when the allocation of the query, if it makes one,
has the outcome `allocOk`. -/
def Query.answer {F : Type} (env : Env F) (argc : Int) (V : List CPtr) (q : Query F)
    (allocOk : Bool) : Except Fault (Logical F) :=
  match q with
  | .parseFlag flag => Except.map Logical.int (ParseFlag argc V flag)
  | .parseInt arg orelse => Except.map Logical.int (ParseInt env.scanInt argc V arg orelse)
  | .parseFloat arg orelse =>
    Except.map Logical.float (ParseFloat env.scanFloat argc V arg orelse)
  | .parseString arg orelse =>
    Except.map (fun o => Logical.text o.result)
      (ParseString (fun _ => allocOk) env.scanStr argc V arg orelse)
  | .countArgs => Except.map Logical.int (CountArgs argc V)
  | .getArgs ArgCount => Except.map Logical.block (GetArgs (fun _ => allocOk) argc V ArgCount)

/-- The slot `slot` of a block in memory holds the logical slot `v`. -/
def SlotHolds (mem : Mem) (slot : Option Ptr) (v : Option CPtr) : Prop :=
  (slot = none ∧ v = none) ∨ ∃ p w, slot = some p ∧ v = some w ∧ PointsTo mem p w

/-- The value `v` a call returned denotes, in `mem`, the logical result `a`: a
number is itself, a pointer denotes the text or the sequence of texts found
at its address. -/
def Represents {F : Type} (mem : Mem) : Value F → Logical F → Prop
  | .int v, .int a => v = a
  | .float v, .float a => v = a
  | .pointer p, .text (.default D) => PointsTo mem p D
  | .pointer p, .text (.buffer t) =>
    ∃ b units, p = some b ∧ mem[b]? = some (.chars units t)
  | .pointer p, .block none => p = none
  | .pointer p, .block (some blk) =>
    ∃ b slots, p = some b ∧ mem[b]? = some (.pointers slots) ∧
      List.Forall₂ (SlotHolds mem) slots blk
  | _, _ => False

/-- An example of C library: the model of `sscanf`, numbers in the place of the
float values, and a heap on which the first call of `malloc` succeeds and
every later call fails. -/
def scarceEnv : Env Int :=
  ⟨sscanfInt, sscanfInt, sscanfStr, fun call _ => decide (call = 0)⟩

/-- The same C library with a heap on which every call of `malloc` succeeds. -/
def plentyEnv : Env Int :=
  ⟨sscanfInt, sscanfInt, sscanfStr, fun _ _ => true⟩

/-- An example of memory: the tokens `prog`, `--name=foo`, the pattern
`--name=%s`, the default `default`, and at address 4 the argument vector. -/
def exampleMem : Mem :=
  [.chars 5 (some "prog".toList), .chars 11 (some "--name=foo".toList),
   .chars 10 (some "--name=%s".toList), .chars 8 (some "default".toList),
   .pointers [some (some 0), some (some 1)]]

/-! ## Vocabulary of the specification -/

/-- A token the scan returns on normally with a count other than one. -/
def Misses {α : Type} (scan : Scanner α) (P t : CStr) : Prop :=
  ∃ r, scan t P = .ok r ∧ r.ret ≠ 1

/-- A token the scan returns on normally with a count other than one, having
stored nothing longer than the 1023 characters the buffer has room for. -/
def MissesWithin (scan : Scanner CStr) (P t : CStr) : Prop :=
  ∃ r, scan t P = .ok r ∧ r.ret ≠ 1 ∧ ∀ s, r.stored = some s → s.length ≤ 1023

/-- A token of 1031 characters: the key `--name=` and a value of 1024. -/
def longToken : CStr :=
  "--name=".toList ++ List.replicate 1024 'a'

/-- The contract of the keyed-scalar queries in the words of the specification:
the value extracted from the first token that matches the pattern, the default
when no token matches. A token matches when the scan returns 1. -/
def firstMatchOrDefault {α : Type} (scan : Scanner α) (P : CStr) (D : α) :
    List CStr → Except Fault α
  | [] => .ok D
  | t :: rest =>
    match scan t P with
    | .error e => .error e
    | .ok r =>
      if r.ret = 1 then
        match r.stored with
        | some v => .ok v
        | none => .error .indeterminateRead
      else firstMatchOrDefault scan P D rest

/-- A token whose first character is not `-`; an empty token has no first
character and qualifies. -/
def positional (t : CStr) : Bool :=
  t.head? != some '-'

/-- The indices `n` with `1 ≤ n < argc` whose token is positional. -/
def positionalIndices (V : List CStr) : List Nat :=
  (List.range V.length).filter (fun n => decide (1 ≤ n) && positional (V.getD n []))

/-- The slot of a block holding a pointer to the token `t`. -/
def slotOf (t : CStr) : Option CPtr := some (some t)

/-- The command line `prog -x a b -y=1 c` of the specification. -/
def exampleArgv : List CStr :=
  ["prog".toList, "-x".toList, "a".toList, "b".toList, "-y=1".toList, "c".toList]

/-! ## Auxiliary facts -/

theorem strcmp_eq_zero_iff (a b : CStr) : strcmp a b = 0 ↔ a = b := by
  induction a generalizing b with
  | nil => cases b <;> simp [strcmp]
  | cons x xs ih =>
    cases b with
    | nil => simp [strcmp]
    | cons y ys =>
      by_cases h : x = y
      · simp [strcmp, h, ih]
      · rw [strcmp, if_neg h]
        simp only [List.cons.injEq, h, false_and, iff_false]
        split <;> decide

/-- When the vector from index `n` on is `x :: rest`, the read `argv[n]` yields
`x` and the vector from index `n + 1` on is `rest`. -/
theorem drop_eq_cons {α : Type} {l : List α} {n : Nat} {x : α} {rest : List α}
    (h : l.drop n = x :: rest) : l[n]? = some x ∧ l.drop (n + 1) = rest := by
  constructor
  · have := List.getElem?_drop (L := l) (i := n) (j := 0)
    rw [h] at this
    simpa using this.symm
  · rw [← List.drop_drop 1 n l]
    simp [h]

theorem readArgv_of_drop {argv : List CPtr} {n : Nat} {x : CPtr} {rest : List CPtr}
    (h : argv.drop n = x :: rest) : readArgv argv n = .ok x := by
  simp [readArgv, (drop_eq_cons h).1]

/-! ## ParseFlag -/

theorem ParseFlag_loop_spec (argv : List CPtr) (F : CStr) (rest : List CStr) :
    ∀ n, argv.drop n = rest.map some →
      ParseFlag.loop argv (some F) rest.length n = .ok (if F ∈ rest then 1 else 0) := by
  induction rest with
  | nil => intro n _; simp [ParseFlag.loop]
  | cons x xs ih =>
    intro n h
    rw [List.map_cons] at h
    simp only [List.length_cons, ParseFlag.loop, readArgv_of_drop h, deref, strcmp_eq_zero_iff]
    by_cases hx : x = F
    · simp [hx]
    · rw [if_neg hx, ih (n + 1) (drop_eq_cons h).2]
      have : F ≠ x := fun e => hx e.symm
      simp [this]

theorem ParseFlag_eq (V : List CStr) (F : CStr) :
    ParseFlag V.length (V.map some) (some F) = .ok (if F ∈ V then 1 else 0) := by
  have := ParseFlag_loop_spec (V.map some) F V 0 (by simp)
  simpa [ParseFlag] using this

/-- C1. On a vector `V` of strings with `argc = length V`, `ParseFlag` returns
1 exactly when some token of `V` (index 0 included) equals the flag `F` as a
string, and 0 exactly when none does; a token that strictly extends `F`, or
that `F` strictly extends, does not count. -/
theorem ParseFlag_iff_mem (V : List CStr) (F : CStr) :
    (ParseFlag V.length (V.map some) (some F) = .ok 1 ↔ F ∈ V) ∧
    (ParseFlag V.length (V.map some) (some F) = .ok 0 ↔ F ∉ V) ∧
    (∀ rest : List CStr, ParseFlag (rest.length + 1) ((F :: rest).map some) (some F) = .ok 1) ∧
    (∀ (c : Char) (more : CStr),
      ParseFlag 1 [some (F ++ c :: more)] (some F) = .ok 0 ∧
      ParseFlag 1 [some F] (some (F ++ c :: more)) = .ok 0) := by
  refine ⟨?_, ?_, ?_, ?_⟩
  · rw [ParseFlag_eq]; by_cases h : F ∈ V <;> simp [h]
  · rw [ParseFlag_eq]; by_cases h : F ∈ V <;> simp [h]
  · intro rest
    have := ParseFlag_eq (F :: rest) F
    simpa using this
  · intro c more
    have h1 := ParseFlag_eq [F ++ c :: more] F
    have h2 := ParseFlag_eq [F] (F ++ c :: more)
    simp at h1 h2
    exact ⟨h1, h2⟩

/-! ## ParseInt: first match or default -/

theorem ParseInt_loop_miss (scan : Scanner Int) (argv : List CPtr) (P : CStr) (D : Int)
    (rest : List CStr) :
    ∀ n retval, argv.drop n = rest.map some → (∀ x ∈ rest, Misses scan P x) →
      ParseInt.loop scan argv (some P) D rest.length n retval = .ok D := by
  induction rest with
  | nil => intro n retval _ _; simp [ParseInt.loop]
  | cons x xs ih =>
    intro n retval h hm
    rw [List.map_cons] at h
    obtain ⟨r, hr, hne⟩ := hm x (List.mem_cons_self _ _)
    simp only [List.length_cons, ParseInt.loop, readArgv_of_drop h, deref, hr, if_neg hne]
    exact ih (n + 1) _ (drop_eq_cons h).2 (fun y hy => hm y (List.mem_cons_of_mem _ hy))

theorem ParseInt_loop_hit (scan : Scanner Int) (argv : List CPtr) (P : CStr) (D k : Int)
    (t : CStr) (post : List CStr) (ht : scan t P = .ok ⟨1, some k⟩) (pre : List CStr) :
    ∀ n retval, argv.drop n = (pre ++ t :: post).map some → (∀ x ∈ pre, Misses scan P x) →
      ParseInt.loop scan argv (some P) D (pre ++ t :: post).length n retval = .ok k := by
  induction pre with
  | nil =>
    intro n retval h _
    rw [List.nil_append, List.map_cons] at h
    simp [ParseInt.loop, readArgv_of_drop h, deref, ht, afterScan]
  | cons x xs ih =>
    intro n retval h hm
    rw [List.cons_append, List.map_cons] at h
    obtain ⟨r, hr, hne⟩ := hm x (List.mem_cons_self _ _)
    simp only [List.cons_append, List.length_cons, ParseInt.loop, readArgv_of_drop h, deref, hr,
      if_neg hne]
    exact ih (n + 1) _ (drop_eq_cons h).2 (fun y hy => hm y (List.mem_cons_of_mem _ hy))

/-- A vector split at one of its indices. -/
theorem split_at_index {α : Type} (V : List α) (i : Nat) (hi : i < V.length) :
    V = V.take i ++ V[i] :: V.drop (i + 1) := by
  simp

theorem mem_take_index {α : Type} (V : List α) (i : Nat) (x : α) (hx : x ∈ V.take i) :
    ∃ j, j < i ∧ ∃ hjl : j < V.length, V[j] = x := by
  obtain ⟨j, hj, rfl⟩ := List.mem_iff_getElem.mp hx
  rw [List.length_take] at hj
  exact ⟨j, by omega, by omega, by simp⟩

/-- C2. When the token at index `i` is the first one on which the scan with the
template `P` returns 1, having captured the integer `k`, `ParseInt` returns `k`,
whatever the default `D` and whatever the tokens after index `i`. -/
theorem ParseInt_first_match (scan : Scanner Int) (V : List CStr) (P : CStr) (D k : Int)
    (i : Nat) (hi : i < V.length)
    (hmatch : scan V[i] P = .ok ⟨1, some k⟩)
    (hfirst : ∀ j, ∀ hj : j < i, ∃ r, scan (V[j]) P = .ok r ∧ r.ret ≠ 1) :
    ParseInt scan V.length (V.map some) (some P) D = .ok k := by
  have hpre : ∀ x ∈ V.take i, Misses scan P x := by
    intro x hx
    obtain ⟨j, hj, hjl, rfl⟩ := mem_take_index V i x hx
    exact hfirst j hj
  have h := ParseInt_loop_hit scan (V.map some) P D k V[i] (V.drop (i + 1)) hmatch (V.take i)
    0 none (by simp) hpre
  rw [← split_at_index V i hi] at h
  simpa [ParseInt] using h

/-- Witness of C2: `--num=7` at index 1 is the first match of `--num=%d`. -/
theorem ParseInt_first_match_witness :
    ParseInt sscanfInt 3
      [some "prog".toList, some "--num=7".toList, some "--num=8".toList]
      (some "--num=%d".toList) 5 = .ok 7 :=
  ParseInt_first_match sscanfInt ["prog".toList, "--num=7".toList, "--num=8".toList]
    "--num=%d".toList 5 7 1 (by decide) (by decide)
    (fun j hj => by
      have h0 : j = 0 := by omega
      subst h0
      have hs : sscanfInt "prog".toList "--num=%d".toList = .ok ⟨0, none⟩ := by decide
      exact ⟨⟨0, none⟩, hs, by decide⟩)

/-- C3. When the scan with the template `P` returns a count other than 1 on
every token of `V` (index 0 included), `ParseInt` returns the default `D`. -/
theorem ParseInt_no_match (scan : Scanner Int) (V : List CStr) (P : CStr) (D : Int)
    (hnone : ∀ t ∈ V, ∃ r, scan t P = .ok r ∧ r.ret ≠ 1) :
    ParseInt scan V.length (V.map some) (some P) D = .ok D := by
  have h := ParseInt_loop_miss scan (V.map some) P D V 0 none (by simp) hnone
  simpa [ParseInt] using h

/-- Witness of C3: no token of `prog --num=x -v` matches `--num=%d`. -/
theorem ParseInt_no_match_witness :
    ParseInt sscanfInt 3
      [some "prog".toList, some "--num=x".toList, some "-v".toList]
      (some "--num=%d".toList) 5 = .ok 5 :=
  ParseInt_no_match sscanfInt ["prog".toList, "--num=x".toList, "-v".toList]
    "--num=%d".toList 5 (by
      intro t ht
      simp only [List.mem_cons, List.mem_singleton, List.not_mem_nil, or_false] at ht
      rcases ht with rfl | rfl | rfl
      · exact ⟨⟨0, none⟩, by decide, by decide⟩
      · exact ⟨⟨0, none⟩, by decide, by decide⟩
      · exact ⟨⟨0, none⟩, by decide, by decide⟩)

/-! ## CountArgs -/

/-- The test `argv[n][0]!='-' && argv[n]!=NULL` on a non-null token. -/
theorem charAt_test (t : CStr) :
    ∃ c, charAt (some t) 0 = .ok c ∧ ((c ≠ '-' ∧ (some t : CPtr) ≠ none) ↔ positional t = true) := by
  cases t with
  | nil => exact ⟨Char.ofNat 0, rfl, by decide⟩
  | cons x xs =>
    refine ⟨x, rfl, ?_⟩
    simp [positional]

theorem CountArgs_loop_spec (argv : List CPtr) (rest : List CStr) :
    ∀ n (acc : Int), argv.drop n = rest.map some →
      CountArgs.loop argv rest.length n acc = .ok (acc + rest.countP positional) := by
  induction rest with
  | nil => intro n acc _; simp [CountArgs.loop]
  | cons x xs ih =>
    intro n acc h
    rw [List.map_cons] at h
    obtain ⟨c, hc, hiff⟩ := charAt_test x
    simp only [List.length_cons, CountArgs.loop, readArgv_of_drop h, hc]
    by_cases hp : positional x = true
    · rw [if_pos (hiff.mpr hp), ih (n + 1) _ (drop_eq_cons h).2, List.countP_cons_of_pos _ _ hp]
      push_cast
      congr 1
      ring
    · rw [if_neg (fun hcond => hp (hiff.mp hcond)), ih (n + 1) _ (drop_eq_cons h).2,
        List.countP_cons_of_neg _ _ hp]

/-- The count on a vector whose tokens from index 1 on are the strings `rest`;
the pointer at index 0 is never read. -/
theorem CountArgs_cons (p0 : CPtr) (rest : List CStr) :
    CountArgs (rest.length + 1) (p0 :: rest.map some) = .ok (rest.countP positional) := by
  have h := CountArgs_loop_spec (p0 :: rest.map some) rest 1 0 (by simp)
  simpa [CountArgs] using h

theorem CountArgs_eq (V : List CStr) :
    CountArgs V.length (V.map some) = .ok (V.tail.countP positional) := by
  cases V with
  | nil => rfl
  | cons x xs => simpa using CountArgs_cons (some x) xs

theorem filter_range_getD (q : CStr → Bool) (xs : List CStr) :
    ((List.range xs.length).filter (fun n => q (xs.getD n []))).length = xs.countP q := by
  induction xs with
  | nil => rfl
  | cons x xs ih =>
    rw [List.length_cons, List.range_succ_eq_map, List.filter_cons, List.filter_map,
      List.countP_cons]
    have hfun : ((fun n => q ((x :: xs).getD n [])) ∘ Nat.succ) = fun n => q (xs.getD n []) := by
      funext n; simp
    rw [hfun]
    have ih1 : ((List.range xs.length).filter (fun n => q (xs[n]?.getD []))).length
        = xs.countP q := by simpa using ih
    by_cases hq : q x = true
    · simp [hq, ih1]
    · simp [hq, ih1]

theorem positionalIndices_length (V : List CStr) :
    (positionalIndices V).length = V.tail.countP positional := by
  cases V with
  | nil => rfl
  | cons x xs =>
    rw [positionalIndices, List.length_cons, List.range_succ_eq_map, List.filter_cons,
      List.filter_map]
    have hfun : ((fun n => decide (1 ≤ n) && positional ((x :: xs).getD n [])) ∘ Nat.succ)
        = fun n => positional (xs.getD n []) := by
      funext n; simp
    rw [hfun]
    simpa using filter_range_getD positional xs

/-- C4. On a vector `V` of non-null tokens, `CountArgs` returns the number of
indices `n`, `1 ≤ n < argc`, whose token does not begin with `-`; the pointer at
index 0 is never read and never counts; `prog -x a b -y=1 c` gives 3. -/
theorem CountArgs_counts_positional (V : List CStr) :
    CountArgs V.length (V.map some) = .ok ((positionalIndices V).length : Int) ∧
    (positionalIndices V).Nodup ∧
    (∀ n, n ∈ positionalIndices V ↔
      1 ≤ n ∧ n < V.length ∧ (V.getD n []).head? ≠ some '-') ∧
    (∀ (p0 : CPtr) (rest : List CStr),
      CountArgs (rest.length + 1) (p0 :: rest.map some) = .ok (rest.countP positional)) ∧
    CountArgs 6 (exampleArgv.map some) = .ok 3 := by
  refine ⟨?_, ?_, ?_, CountArgs_cons, by decide⟩
  · rw [CountArgs_eq, positionalIndices_length]
  · exact List.Nodup.filter _ (List.nodup_range _)
  · intro n
    simp only [positionalIndices, List.mem_filter, List.mem_range, Bool.and_eq_true,
      decide_eq_true_eq, positional, bne_iff_ne]
    tauto

/-- C10. A null token at an index `n ≥ 1` below `argc`, the tokens between
index 1 and `n` being strings: `CountArgs` reads `argv[n][0]` before it compares
`argv[n]` with `NULL`, so the call faults on the null pointer instead of
skipping the token. -/
theorem CountArgs_null_token_faults (p0 : CPtr) (pre : List CStr) (post : List CPtr) :
    CountArgs ((p0 :: (pre.map some ++ none :: post)).length)
      (p0 :: (pre.map some ++ none :: post)) = .error .nullDeref ∧
    CountArgs 2 [some "prog".toList, none] = .error .nullDeref := by
  refine ⟨?_, by decide⟩
  have key : ∀ (pre : List CStr) (argv : List CPtr) (n m : Nat) (acc : Int),
      argv.drop n = pre.map some ++ none :: post →
      CountArgs.loop argv (pre.length + (m + 1)) n acc = .error .nullDeref := by
    intro pre
    induction pre with
    | nil =>
      intro argv n m acc h
      rw [List.map_nil, List.nil_append] at h
      simp [CountArgs.loop, readArgv_of_drop h, charAt]
    | cons x xs ih =>
      intro argv n m acc h
      rw [List.map_cons, List.cons_append] at h
      obtain ⟨c, hc, -⟩ := charAt_test x
      have hlen : (x :: xs).length + (m + 1) = (xs.length + (m + 1)) + 1 := by
        simp only [List.length_cons]; omega
      rw [hlen]
      simp only [CountArgs.loop, readArgv_of_drop h, hc]
      split
      · exact ih argv (n + 1) m _ (drop_eq_cons h).2
      · exact ih argv (n + 1) m _ (drop_eq_cons h).2
  have h := key pre (p0 :: (pre.map some ++ none :: post)) 1 post.length 0 (by simp)
  have hl : (((p0 :: (pre.map some ++ none :: post)).length : Int) - 1).toNat
      = pre.length + (post.length + 1) := by
    simp only [List.length_cons, List.length_append, List.length_map]
    omega
  rw [CountArgs, hl]
  exact h

/-! ## GetArgs -/

theorem Block_store_next (done : Block) (m : Nat) (v : CPtr) :
    Block.store (done ++ List.replicate (m + 1) none) done.length v
      = .ok ((done ++ [some v]) ++ List.replicate m none) := by
  have hlt : done.length < (done ++ List.replicate (m + 1) none).length := by
    simp
  rw [Block.store, if_pos hlt]
  simp [List.replicate_succ]

theorem Block_store_full (done : Block) (v : CPtr) :
    Block.store (done ++ List.replicate 0 none) done.length v
      = .error (.storeOutOfBounds done.length done.length) := by
  simp [Block.store]

/-- The loop of `GetArgs` on a block with room for every positional token left:
the tokens fill the free slots in order, the slots beyond stay unwritten. -/
theorem GetArgs_loop_fits (argv : List CPtr) (rest : List CStr) :
    ∀ (n : Nat) (done : Block) (m : Nat), argv.drop n = rest.map some →
      rest.countP positional ≤ m →
      GetArgs.loop argv rest.length n done.length (done ++ List.replicate m none)
        = .ok (done.length + rest.countP positional,
            done ++ (rest.filter positional).map slotOf
              ++ List.replicate (m - rest.countP positional) none) := by
  induction rest with
  | nil => intro n done m _ _; simp [GetArgs.loop]
  | cons x xs ih =>
    intro n done m h hle
    rw [List.map_cons] at h
    obtain ⟨c, hc, hiff⟩ := charAt_test x
    simp only [List.length_cons, GetArgs.loop, readArgv_of_drop h, hc]
    by_cases hp : positional x = true
    · rw [List.countP_cons_of_pos _ _ hp] at hle ⊢
      obtain ⟨m1, rfl⟩ : ∃ m1, m = m1 + 1 := ⟨m - 1, by omega⟩
      rw [if_pos (hiff.mpr hp), Block_store_next]
      have hrec := ih (n + 1) (done ++ [some (some x)]) m1 (drop_eq_cons h).2 (by omega)
      simp only [List.length_append, List.length_singleton] at hrec
      dsimp only
      rw [hrec, List.filter_cons_of_pos hp]
      simp [slotOf, Nat.add_assoc, Nat.add_comm 1]
    · rw [List.countP_cons_of_neg _ _ hp] at hle ⊢
      rw [if_neg (fun hcond => hp (hiff.mp hcond)), List.filter_cons_of_neg hp]
      exact ih (n + 1) done m (drop_eq_cons h).2 hle

/-- The loop of `GetArgs` on a block with fewer free slots than positional
tokens left: once the free slots are used, the next store is past the block. -/
theorem GetArgs_loop_overflow (argv : List CPtr) (rest : List CStr) :
    ∀ (n : Nat) (done : Block) (m : Nat), argv.drop n = rest.map some →
      m < rest.countP positional →
      GetArgs.loop argv rest.length n done.length (done ++ List.replicate m none)
        = .error (.storeOutOfBounds (done.length + m) (done.length + m)) := by
  induction rest with
  | nil => intro n done m _ hlt; simp at hlt
  | cons x xs ih =>
    intro n done m h hlt
    rw [List.map_cons] at h
    obtain ⟨c, hc, hiff⟩ := charAt_test x
    simp only [List.length_cons, GetArgs.loop, readArgv_of_drop h, hc]
    by_cases hp : positional x = true
    · rw [List.countP_cons_of_pos _ _ hp] at hlt
      rw [if_pos (hiff.mpr hp)]
      cases m with
      | zero => rw [Block_store_full]; simp
      | succ m1 =>
        rw [Block_store_next]
        have hrec := ih (n + 1) (done ++ [some (some x)]) m1 (drop_eq_cons h).2 (by omega)
        simp only [List.length_append, List.length_singleton] at hrec
        dsimp only
        rw [hrec]
        simp [Nat.add_assoc, Nat.add_comm 1]
    · rw [List.countP_cons_of_neg _ _ hp] at hlt
      rw [if_neg (fun hcond => hp (hiff.mp hcond))]
      exact ih (n + 1) done m (drop_eq_cons h).2 hlt

/-- The number of slots of the block requested for an `int` count that is not
negative. -/
theorem requestBytes_slots (ArgCount : Int) (h0 : 0 ≤ ArgCount) (hint : ArgCount < 2 ^ 31) :
    requestBytes ArgCount / pointerSize = ArgCount.toNat := by
  unfold requestBytes pointerSize
  have h1 : (ArgCount * ((8 : Nat) : Int)) % 2 ^ 64 = ArgCount * 8 := by
    apply Int.emod_eq_of_lt <;> omega
  rw [h1]
  omega

theorem GetArgs_loop_start (V : List CStr) :
    (V.map some : List CPtr).drop 1 = V.tail.map some ∧
    ((V.length : Int) - 1).toNat = V.tail.length := by
  cases V with
  | nil => exact ⟨rfl, rfl⟩
  | cons x xs => simp

/-- C5. On a vector `V` of non-null tokens, with `ArgCount` at least the count
`c` that `CountArgs` returns and the allocation succeeding, `GetArgs` returns a
block of `ArgCount` slots whose first `c` slots hold, in their original order,
the tokens of `V` after index 0 that do not begin with `-`; on
`prog -x a b -y=1 c` with `ArgCount = 3` the block is `a`, `b`, `c`. -/
theorem GetArgs_fills_in_order (malloc : Nat → Bool) (V : List CStr) (ArgCount c : Int)
    (hc : CountArgs V.length (V.map some) = .ok c) (hle : c ≤ ArgCount)
    (hint : ArgCount < 2 ^ 31) (halloc : malloc (requestBytes ArgCount) = true) :
    (∃ b : Block, GetArgs malloc V.length (V.map some) ArgCount = .ok (some b) ∧
      b.length = ArgCount.toNat ∧
      b.take c.toNat = (V.tail.filter positional).map slotOf ∧
      b.drop c.toNat = List.replicate (ArgCount - c).toNat none) ∧
    GetArgs (fun _ => true) 6 (exampleArgv.map some) 3
      = .ok (some [slotOf "a".toList, slotOf "b".toList, slotOf "c".toList]) := by
  refine ⟨?_, by decide⟩
  rw [CountArgs_eq] at hc
  have hcv : (V.tail.countP positional : Int) = c := by injection hc
  subst hcv
  have h0 : (0 : Int) ≤ ArgCount := le_trans (Int.ofNat_nonneg _) hle
  obtain ⟨hdrop, hlen⟩ := GetArgs_loop_start V
  have hroom : V.tail.countP positional ≤ ArgCount.toNat := by omega
  have hloop := GetArgs_loop_fits (V.map some) V.tail 1 [] ArgCount.toNat hdrop hroom
  simp only [List.length_nil, List.nil_append, Nat.zero_add] at hloop
  refine ⟨(V.tail.filter positional).map slotOf
      ++ List.replicate (ArgCount.toNat - V.tail.countP positional) none, ?_, ?_, ?_, ?_⟩
  · rw [GetArgs, if_pos halloc, requestBytes_slots ArgCount h0 hint, hlen, hloop]
  · simp only [List.length_append, List.length_map, List.length_replicate,
      ← List.countP_eq_length_filter]
    omega
  · simp [List.countP_eq_length_filter]
  · have hl : ((V.tail.filter positional).map slotOf).length = V.tail.countP positional := by
      simp [List.countP_eq_length_filter]
    rw [Int.toNat_ofNat, ← hl, List.drop_left, hl]
    congr 1
    omega

/-- Witness of C5: the example command line with `ArgCount = 3`. -/
theorem GetArgs_fills_in_order_witness :
    (∃ b : Block, GetArgs (fun _ => true) 6 (exampleArgv.map some) 3 = .ok (some b) ∧
      b.length = 3 ∧
      b.take 3 = [slotOf "a".toList, slotOf "b".toList, slotOf "c".toList] ∧
      b.drop 3 = []) ∧
    GetArgs (fun _ => true) 6 (exampleArgv.map some) 3
      = .ok (some [slotOf "a".toList, slotOf "b".toList, slotOf "c".toList]) :=
  GetArgs_fills_in_order (fun _ => true) exampleArgv 3 3 (by decide) (by decide) (by decide)
    (by decide)

/-- Counterexample to C6 as stated: on `prog -x a b -y=1 c` with `ArgCount = 1`
the call does not return the one-slot block holding `a`; the store of `b` goes
to slot 1 of a block of one slot. -/
theorem GetArgs_truncation_counterexample :
    GetArgs (fun _ => true) 6 (exampleArgv.map some) 1 = .error (.storeOutOfBounds 1 1) ∧
    GetArgs (fun _ => true) 6 (exampleArgv.map some) 1 ≠ .ok (some [slotOf "a".toList]) := by
  constructor <;> decide

/-- C6, amended. On a vector `V` of non-null tokens, with `0 ≤ ArgCount` below
the count `c` that `CountArgs` returns and the allocation succeeding, `GetArgs`
drops nothing: having filled the `ArgCount` slots, it stores the next
positional token at index `ArgCount`, past the end of the block. -/
theorem GetArgs_short_block_overflows (malloc : Nat → Bool) (V : List CStr)
    (ArgCount c : Int) (hc : CountArgs V.length (V.map some) = .ok c)
    (h0 : 0 ≤ ArgCount) (hlt : ArgCount < c) (hint : ArgCount < 2 ^ 31)
    (halloc : malloc (requestBytes ArgCount) = true) :
    GetArgs malloc V.length (V.map some) ArgCount
      = .error (.storeOutOfBounds ArgCount.toNat ArgCount.toNat) := by
  rw [CountArgs_eq] at hc
  have hcv : (V.tail.countP positional : Int) = c := by injection hc
  subst hcv
  obtain ⟨hdrop, hlen⟩ := GetArgs_loop_start V
  have hroom : ArgCount.toNat < V.tail.countP positional := by omega
  have hloop := GetArgs_loop_overflow (V.map some) V.tail 1 [] ArgCount.toNat hdrop hroom
  simp only [List.length_nil, List.nil_append, Nat.zero_add] at hloop
  rw [GetArgs, if_pos halloc, requestBytes_slots ArgCount h0 hint, hlen, hloop]

/-- Witness of the amended C6: the example command line with `ArgCount = 1`. -/
theorem GetArgs_short_block_overflows_witness :
    GetArgs (fun _ => true) 6 (exampleArgv.map some) 1 = .error (.storeOutOfBounds 1 1) :=
  GetArgs_short_block_overflows (fun _ => true) exampleArgv 1 3 (by decide) (by decide)
    (by decide) (by decide) (by decide)

/-! ## ParseString -/

theorem storeText_within (r : ScanResult CStr) (buf : Option CStr)
    (h : ∀ s, r.stored = some s → s.length ≤ 1023) :
    ∃ buf1, storeText r buf = .ok buf1 := by
  unfold storeText
  cases hs : r.stored with
  | none => exact ⟨buf, rfl⟩
  | some t =>
    have ht : t.length + 1 ≤ bufferUnits := by
      have := h t hs
      unfold bufferUnits
      omega
    exact ⟨some t, by simp [ht]⟩

theorem ParseString_loop_miss (scan : Scanner CStr) (argv : List CPtr) (P : CStr) (D : CPtr)
    (rest : List CStr) :
    ∀ n buf, argv.drop n = rest.map some → (∀ x ∈ rest, MissesWithin scan P x) →
      ParseString.loop scan argv (some P) D rest.length n buf = .ok (.default D) := by
  induction rest with
  | nil => intro n buf _ _; simp [ParseString.loop]
  | cons x xs ih =>
    intro n buf h hm
    rw [List.map_cons] at h
    obtain ⟨r, hr, hne, hfit⟩ := hm x (List.mem_cons_self _ _)
    obtain ⟨buf1, hb⟩ := storeText_within r buf hfit
    simp only [List.length_cons, ParseString.loop, readArgv_of_drop h, deref, hr, hb, if_neg hne]
    exact ih (n + 1) _ (drop_eq_cons h).2 (fun y hy => hm y (List.mem_cons_of_mem _ hy))

theorem ParseString_loop_hit (scan : Scanner CStr) (argv : List CPtr) (P : CStr) (D : CPtr)
    (t text : CStr) (post : List CStr) (ht : scan t P = .ok ⟨1, some text⟩)
    (hfit : text.length ≤ 1023) (pre : List CStr) :
    ∀ n buf, argv.drop n = (pre ++ t :: post).map some → (∀ x ∈ pre, MissesWithin scan P x) →
      ParseString.loop scan argv (some P) D (pre ++ t :: post).length n buf
        = .ok (.buffer (some text)) := by
  induction pre with
  | nil =>
    intro n buf h _
    rw [List.nil_append, List.map_cons] at h
    have hs : storeText ⟨1, some text⟩ buf = .ok (some text) := by
      have : text.length + 1 ≤ bufferUnits := by unfold bufferUnits; omega
      simp [storeText, this]
    simp [ParseString.loop, readArgv_of_drop h, deref, ht, hs]
  | cons x xs ih =>
    intro n buf h hm
    rw [List.cons_append, List.map_cons] at h
    obtain ⟨r, hr, hne, hfitx⟩ := hm x (List.mem_cons_self _ _)
    obtain ⟨buf1, hb⟩ := storeText_within r buf hfitx
    simp only [List.cons_append, List.length_cons, ParseString.loop, readArgv_of_drop h, deref,
      hr, hb, if_neg hne]
    exact ih (n + 1) _ (drop_eq_cons h).2 (fun y hy => hm y (List.mem_cons_of_mem _ hy))

set_option maxRecDepth 100000 in
/-- Counterexample to C7 as stated: the allocation succeeds and the one token
matches `--name=%s`, the scan capturing its 1024 characters after the key, yet
`ParseString` does not return that text: text and terminator are 1025 units,
and the store runs past the 1024-unit block. -/
theorem ParseString_long_token_counterexample :
    sscanfStr longToken "--name=%s".toList = .ok ⟨1, some (List.replicate 1024 'a')⟩ ∧
    ParseString (fun _ => true) sscanfStr 1 [some longToken] (some "--name=%s".toList)
        (some "default".toList)
      = .error (.storeOutOfBounds 1024 1024) ∧
    Except.map StringOutcome.result
        (ParseString (fun _ => true) sscanfStr 1 [some longToken] (some "--name=%s".toList)
          (some "default".toList))
      ≠ .ok (.buffer (some (List.replicate 1024 'a'))) := by
  refine ⟨by decide, by decide, by decide⟩

/-- C7, amended. When the allocation succeeds and every text a scan stores has
at most 1023 characters: if the token at index `i` is the first on which the
scan with the template `P` returns 1, having captured `text`, `ParseString`
returns the buffer holding `text`; if the scan returns a count other than 1 on
every token, it returns the pointer `D` itself. So `prog --name=foo` gives
`foo` and `prog` alone gives the default. -/
theorem ParseString_first_match_or_default (malloc : Nat → Bool) (scan : Scanner CStr)
    (V : List CStr) (P : CStr) (D : CPtr) (halloc : malloc (bufferUnits * 1) = true) :
    (∀ (i : Nat) (hi : i < V.length) (text : CStr),
      scan V[i] P = .ok ⟨1, some text⟩ → text.length ≤ 1023 →
      (∀ j, ∀ hj : j < i, ∃ r, scan (V[j]) P = .ok r ∧ r.ret ≠ 1 ∧
        ∀ s, r.stored = some s → s.length ≤ 1023) →
      Except.map StringOutcome.result (ParseString malloc scan V.length (V.map some) (some P) D)
        = .ok (.buffer (some text))) ∧
    ((∀ t ∈ V, ∃ r, scan t P = .ok r ∧ r.ret ≠ 1 ∧
        ∀ s, r.stored = some s → s.length ≤ 1023) →
      Except.map StringOutcome.result (ParseString malloc scan V.length (V.map some) (some P) D)
        = .ok (.default D)) ∧
    Except.map StringOutcome.result
      (ParseString (fun _ => true) sscanfStr 2 [some "prog".toList, some "--name=foo".toList]
        (some "--name=%s".toList) (some "default".toList))
      = .ok (.buffer (some "foo".toList)) ∧
    Except.map StringOutcome.result
      (ParseString (fun _ => true) sscanfStr 1 [some "prog".toList]
        (some "--name=%s".toList) (some "default".toList))
      = .ok (.default (some "default".toList)) := by
  refine ⟨?_, ?_, by decide, by decide⟩
  · intro i hi text hmatch hfit hfirst
    have hpre : ∀ x ∈ V.take i, MissesWithin scan P x := by
      intro x hx
      obtain ⟨j, hj, hjl, rfl⟩ := mem_take_index V i x hx
      exact hfirst j hj
    have h := ParseString_loop_hit scan (V.map some) P D V[i] text (V.drop (i + 1)) hmatch hfit
      (V.take i) 0 none (by simp) hpre
    rw [← split_at_index V i hi] at h
    simp only [ParseString, if_pos halloc, Int.toNat_ofNat, h]
    rfl
  · intro hnone
    have h := ParseString_loop_miss scan (V.map some) P D V 0 none (by simp) hnone
    simp only [ParseString, if_pos halloc, Int.toNat_ofNat, h]
    rfl

/-- Witness of the amended C7: `--name=foo` at index 1 is the first match, and
a vector without a match. -/
theorem ParseString_first_match_or_default_witness :
    Except.map StringOutcome.result
      (ParseString (fun _ => true) sscanfStr 2 [some "prog".toList, some "--name=foo".toList]
        (some "--name=%s".toList) (some "default".toList))
      = .ok (.buffer (some "foo".toList)) ∧
    Except.map StringOutcome.result
      (ParseString (fun _ => true) sscanfStr 1 [some "prog".toList]
        (some "--name=%s".toList) (some "default".toList))
      = .ok (.default (some "default".toList)) := by
  have hprog : sscanfStr "prog".toList "--name=%s".toList = .ok ⟨0, none⟩ := by decide
  constructor
  · exact (ParseString_first_match_or_default (fun _ => true) sscanfStr
      ["prog".toList, "--name=foo".toList] "--name=%s".toList (some "default".toList) rfl).1
      1 (by decide) "foo".toList (by decide) (by decide)
      (fun j hj => by
        have h0 : j = 0 := by omega
        subst h0
        exact ⟨⟨0, none⟩, hprog, by decide, by simp⟩)
  · exact (ParseString_first_match_or_default (fun _ => true) sscanfStr
      ["prog".toList] "--name=%s".toList (some "default".toList) rfl).2.1
      (fun t ht => by
        simp only [List.mem_singleton] at ht
        subst ht
        exact ⟨⟨0, none⟩, hprog, by decide, by simp⟩)

/-- Counterexample to C8 as stated: on `prog` alone no token matches
`--name=%s`, the default is returned, and the call has allocated one buffer. -/
theorem ParseString_miss_allocates_counterexample :
    sscanfStr "prog".toList "--name=%s".toList = .ok ⟨0, none⟩ ∧
    ParseString (fun _ => true) sscanfStr 1 [some "prog".toList] (some "--name=%s".toList)
        (some "default".toList)
      = .ok ⟨.default (some "default".toList), 1⟩ ∧
    Except.map StringOutcome.allocated
        (ParseString (fun _ => true) sscanfStr 1 [some "prog".toList]
          (some "--name=%s".toList) (some "default".toList))
      ≠ .ok 0 := by
  refine ⟨by decide, by decide, by decide⟩

/-- C8, amended. `ParseString` requests its buffer before it scans, on every
call: when the scan returns a count other than 1 on every token and the
request succeeds, the call returns the default having allocated one buffer. -/
theorem ParseString_miss_allocates_once (malloc : Nat → Bool) (scan : Scanner CStr)
    (V : List CStr) (P : CStr) (D : CPtr) (halloc : malloc (bufferUnits * 1) = true)
    (hnone : ∀ t ∈ V, ∃ r, scan t P = .ok r ∧ r.ret ≠ 1 ∧
        ∀ s, r.stored = some s → s.length ≤ 1023) :
    ParseString malloc scan V.length (V.map some) (some P) D = .ok ⟨.default D, 1⟩ := by
  have h := ParseString_loop_miss scan (V.map some) P D V 0 none (by simp) hnone
  simp only [ParseString, if_pos halloc, Int.toNat_ofNat, h]

/-- Witness of the amended C8: `prog` alone, scanned with `--name=%s`. -/
theorem ParseString_miss_allocates_once_witness :
    ParseString (fun _ => true) sscanfStr 1 [some "prog".toList] (some "--name=%s".toList)
        (some "default".toList)
      = .ok ⟨.default (some "default".toList), 1⟩ :=
  ParseString_miss_allocates_once (fun _ => true) sscanfStr ["prog".toList]
    "--name=%s".toList (some "default".toList) rfl
    (fun t ht => by
      simp only [List.mem_singleton] at ht
      subst ht
      exact ⟨⟨0, none⟩, by decide, by decide, by simp⟩)

/-- C9. When the allocation of the buffer fails, `ParseString` returns the
pointer `orelse` itself and nothing else happens: for every scan function,
also one that would fault on its first call, for every `argc` and every vector,
also one with a matching token, a null token or fewer than `argc` entries. -/
theorem ParseString_alloc_failure (malloc : Nat → Bool) (scan : Scanner CStr) (argc : Int)
    (argv : List CPtr) (arg orelse : CPtr) (hfail : malloc (bufferUnits * 1) = false) :
    ParseString malloc scan argc argv arg orelse = .ok ⟨.default orelse, 0⟩ ∧
    ParseString malloc (fun _ _ => .error .badFormat) argc argv arg orelse
      = ParseString malloc scan argc argv arg orelse := by
  have h : ∀ sc : Scanner CStr,
      ParseString malloc sc argc argv arg orelse = .ok ⟨.default orelse, 0⟩ := by
    intro sc
    simp only [ParseString, hfail, Bool.false_eq_true, if_false]
  exact ⟨h scan, (h _).trans (h scan).symm⟩

/-- Witness of C9: `--name=foo` matches `--name=%s`, and with a failing
allocation the default is returned. -/
theorem ParseString_alloc_failure_witness :
    sscanfStr "--name=foo".toList "--name=%s".toList = .ok ⟨1, some "foo".toList⟩ ∧
    ParseString (fun _ => false) sscanfStr 2 [some "prog".toList, some "--name=foo".toList]
        (some "--name=%s".toList) (some "default".toList)
      = .ok ⟨.default (some "default".toList), 0⟩ :=
  ⟨by decide,
    (ParseString_alloc_failure (fun _ => false) sscanfStr 2
      [some "prog".toList, some "--name=foo".toList] (some "--name=%s".toList)
      (some "default".toList) rfl).1⟩

/-! ## GetArgs: the null marker -/

/-- The block `GetArgs` returns when it has room for every positional token. -/
theorem GetArgs_of_room (malloc : Nat → Bool) (V : List CStr) (ArgCount : Int)
    (h0 : 0 ≤ ArgCount) (hint : ArgCount < 2 ^ 31)
    (halloc : malloc (requestBytes ArgCount) = true)
    (hroom : V.tail.countP positional ≤ ArgCount.toNat) :
    GetArgs malloc V.length (V.map some) ArgCount
      = .ok (some ((V.tail.filter positional).map slotOf
          ++ List.replicate (ArgCount.toNat - V.tail.countP positional) none)) := by
  obtain ⟨hdrop, hlen⟩ := GetArgs_loop_start V
  have hloop := GetArgs_loop_fits (V.map some) V.tail 1 [] ArgCount.toNat hdrop hroom
  simp only [List.length_nil, List.nil_append, Nat.zero_add] at hloop
  rw [GetArgs, if_pos halloc, requestBytes_slots ArgCount h0 hint, hlen, hloop]

theorem GetArgs_of_alloc_failure (malloc : Nat → Bool) (argc : Int) (argv : List CPtr)
    (ArgCount : Int) (hfail : malloc (requestBytes ArgCount) = false) :
    GetArgs malloc argc argv ArgCount = .ok none := by
  simp only [GetArgs, hfail, Bool.false_eq_true, if_false]

theorem GetArgs_ne_null (malloc : Nat → Bool) (argc : Int) (argv : List CPtr)
    (ArgCount : Int) (halloc : malloc (requestBytes ArgCount) = true) :
    GetArgs malloc argc argv ArgCount ≠ .ok none := by
  rw [GetArgs, if_pos halloc]
  split
  · intro h; cases h
  · intro h; cases h

/-- Counterexample to C11 as stated: on `prog a` with `ArgCount = 0` the
allocation succeeds and the call returns no sequence, null or not: the store
of `a` goes to slot 0 of a block without slots. -/
theorem GetArgs_non_null_counterexample :
    GetArgs (fun _ => true) 2 [some "prog".toList, some "a".toList] 0
      = .error (.storeOutOfBounds 0 0) ∧
    ¬ ∃ b : Block, GetArgs (fun _ => true) 2 [some "prog".toList, some "a".toList] 0
      = .ok (some b) := by
  have h : GetArgs (fun _ => true) 2 [some "prog".toList, some "a".toList] 0
      = .error (.storeOutOfBounds 0 0) := by decide
  refine ⟨h, ?_⟩
  rintro ⟨b, hb⟩
  rw [h] at hb
  cases hb

/-- C11, amended. When the allocation fails, `GetArgs` returns the null marker
whatever the vector, which it does not read. When the allocation succeeds it
never returns the null marker, and on a vector `V` of non-null tokens with
`ArgCount` at least the count of `CountArgs` it returns a block of `ArgCount`
slots; with `ArgCount = 0` and no positional token that block is the empty
one, distinct from the null marker. -/
theorem GetArgs_null_marker (malloc : Nat → Bool) (ArgCount : Int) :
    (malloc (requestBytes ArgCount) = false →
      ∀ (argc : Int) (argv : List CPtr), GetArgs malloc argc argv ArgCount = .ok none) ∧
    (malloc (requestBytes ArgCount) = true →
      (∀ (argc : Int) (argv : List CPtr), GetArgs malloc argc argv ArgCount ≠ .ok none) ∧
      (∀ (V : List CStr) (c : Int), CountArgs V.length (V.map some) = .ok c →
        c ≤ ArgCount → ArgCount < 2 ^ 31 →
        ∃ b : Block, GetArgs malloc V.length (V.map some) ArgCount = .ok (some b) ∧
          b.length = ArgCount.toNat)) ∧
    (malloc (requestBytes 0) = true →
      ∀ V : List CStr, CountArgs V.length (V.map some) = .ok 0 →
        GetArgs malloc V.length (V.map some) 0 = .ok (some [])) := by
  refine ⟨fun hfail argc argv => GetArgs_of_alloc_failure malloc argc argv ArgCount hfail,
    fun halloc => ⟨fun argc argv => GetArgs_ne_null malloc argc argv ArgCount halloc, ?_⟩, ?_⟩
  · intro V c hc hle hint
    rw [CountArgs_eq] at hc
    have hcv : (V.tail.countP positional : Int) = c := by injection hc
    subst hcv
    have h0 : (0 : Int) ≤ ArgCount := le_trans (Int.ofNat_nonneg _) hle
    have hroom : V.tail.countP positional ≤ ArgCount.toNat := by omega
    refine ⟨_, GetArgs_of_room malloc V ArgCount h0 hint halloc hroom, ?_⟩
    simp only [List.length_append, List.length_map, List.length_replicate,
      ← List.countP_eq_length_filter]
    omega
  · intro halloc V hc
    rw [CountArgs_eq] at hc
    have hcv : (V.tail.countP positional : Int) = 0 := by injection hc
    have hz : V.tail.countP positional = 0 := by omega
    have h := GetArgs_of_room malloc V 0 (le_refl 0) (by norm_num) halloc (by omega)
    rw [h]
    have hf : V.tail.filter positional = [] := by
      apply List.eq_nil_of_length_eq_zero
      rw [← List.countP_eq_length_filter]; exact hz
    simp [hf]

/-- Witness of the amended C11: `prog -x` with `ArgCount = 0`, the allocation
failing and succeeding. -/
theorem GetArgs_null_marker_witness :
    GetArgs (fun _ => false) 2 [some "prog".toList, some "-x".toList] 0 = .ok none ∧
    GetArgs (fun _ => true) 2 [some "prog".toList, some "-x".toList] 0 ≠ .ok none ∧
    (∃ b : Block, GetArgs (fun _ => true) 2 [some "prog".toList, some "-x".toList] 0
      = .ok (some b) ∧ b.length = 0) ∧
    GetArgs (fun _ => true) 2 [some "prog".toList, some "-x".toList] 0 = .ok (some []) :=
  ⟨(GetArgs_null_marker (fun _ => false) 0).1 rfl 2 [some "prog".toList, some "-x".toList],
   ((GetArgs_null_marker (fun _ => true) 0).2.1 rfl).1 2
      [some "prog".toList, some "-x".toList],
   ((GetArgs_null_marker (fun _ => true) 0).2.1 rfl).2 ["prog".toList, "-x".toList] 0
      (by decide) (by decide) (by decide),
   (GetArgs_null_marker (fun _ => true) 0).2.2 rfl ["prog".toList, "-x".toList] (by decide)⟩

/-! ## The model of `sscanf` on a key followed by one placeholder -/

theorem sscanf_run_literal (c : Char) (fmt input : CStr) (a : Option Val) (hc : c ≠ '%') :
    sscanf.run (c :: fmt) input a =
      if isspace c then sscanf.run fmt (input.dropWhile isspace) a
      else
        match input with
        | [] => .ok (scanStop a true)
        | i :: input1 =>
          if i = c then sscanf.run fmt input1 a
          else .ok (scanStop a false) := by
  cases fmt with
  | nil =>
    show (if c = '%' then _ else _) = _
    rw [if_neg hc]
  | cons k rest =>
    show (if c = '%' then _ else _) = _
    rw [if_neg hc]

theorem sscanf_run_percent_s (input : CStr) :
    sscanf.run ['%', 's'] input none =
      match convertS input with
      | .inputFailure => .ok (scanStop none true)
      | .matchingFailure => .ok (scanStop none false)
      | .converted v _ => .ok (scanStop (some v) false) := by
  show (if '%' = '%' then _ else _) = _
  rw [if_pos rfl]
  show (if 's' = 'd' then _ else _) = _
  rw [if_neg (by decide)]
  show (if 's' = 's' then _ else _) = _
  rw [if_pos rfl]
  cases convertS input <;> rfl

theorem sscanf_run_percent_d (input : CStr) :
    sscanf.run ['%', 'd'] input none =
      match convertD input with
      | .error e => .error e
      | .ok .inputFailure => .ok (scanStop none true)
      | .ok .matchingFailure => .ok (scanStop none false)
      | .ok (.converted v _) => .ok (scanStop (some v) false) := by
  show (if '%' = '%' then _ else _) = _
  rw [if_pos rfl]
  show (if 'd' = 'd' then _ else _) = _
  rw [if_pos rfl]
  rcases convertD input with e | c
  · rfl
  · cases c <;> rfl

/-- With one of the placeholders `%d` and `%s` as the whole template, a call
returns 1 having stored a value, or another count having stored nothing. -/
theorem sscanf_run_placeholder (k : Char) (hk : k = 'd' ∨ k = 's') (input : CStr)
    (r : ScanResult Val) (h : sscanf.run ['%', k] input none = .ok r) :
    (∃ v, r = ⟨1, some v⟩) ∨ (r.ret ≠ 1 ∧ r.stored = none) := by
  rcases hk with rfl | rfl
  · rw [sscanf_run_percent_d] at h
    split at h
    · cases h
    · injection h with h; subst h; exact Or.inr ⟨by decide, rfl⟩
    · injection h with h; subst h; exact Or.inr ⟨by decide, rfl⟩
    · injection h with h; subst h; exact Or.inl ⟨_, rfl⟩
  · rw [sscanf_run_percent_s] at h
    split at h
    · injection h with h; subst h; exact Or.inr ⟨by decide, rfl⟩
    · injection h with h; subst h; exact Or.inr ⟨by decide, rfl⟩
    · injection h with h; subst h; exact Or.inl ⟨_, rfl⟩

/-- The same for a template made of a key without `%` and one placeholder. -/
theorem sscanf_run_keyed (k : Char) (hk : k = 'd' ∨ k = 's') (key : CStr)
    (hkey : '%' ∉ key) :
    ∀ (input : CStr) (r : ScanResult Val),
      sscanf.run (key ++ ['%', k]) input none = .ok r →
      (∃ v, r = ⟨1, some v⟩) ∨ (r.ret ≠ 1 ∧ r.stored = none) := by
  induction key with
  | nil => intro input r h; exact sscanf_run_placeholder k hk input r h
  | cons c key ih =>
    intro input r h
    have hc : c ≠ '%' := fun e => hkey (by simp [e])
    have hkey1 : '%' ∉ key := fun hm => hkey (List.mem_cons_of_mem _ hm)
    rw [List.cons_append, sscanf_run_literal c _ input none hc] at h
    split at h
    · exact ih hkey1 _ r h
    · split at h
      · injection h with h; subst h; exact Or.inr ⟨by decide, rfl⟩
      · split at h
        · exact ih hkey1 _ r h
        · injection h with h; subst h; exact Or.inr ⟨by decide, rfl⟩

theorem convertS_cases (input : CStr) :
    convertS input = .inputFailure ∨
    ∃ text rest, convertS input = .converted (.str text) rest := by
  unfold convertS
  split
  · exact Or.inl rfl
  · exact Or.inr ⟨_, _, rfl⟩

/-- A key followed by `%s` never faults: the run returns 1 having stored a
text, or another count having stored nothing. -/
theorem sscanf_run_keyed_s (key : CStr) (hkey : '%' ∉ key) :
    ∀ input : CStr, ∃ r, sscanf.run (key ++ ['%', 's']) input none = .ok r ∧
      ((∃ text, r = ⟨1, some (.str text)⟩) ∨ (r.ret ≠ 1 ∧ r.stored = none)) := by
  induction key with
  | nil =>
    intro input
    rw [List.nil_append, sscanf_run_percent_s]
    rcases convertS_cases input with h | ⟨text, rest, h⟩
    · rw [h]; exact ⟨_, rfl, Or.inr ⟨by decide, rfl⟩⟩
    · rw [h]; exact ⟨_, rfl, Or.inl ⟨text, rfl⟩⟩
  | cons c key ih =>
    intro input
    have hc : c ≠ '%' := fun e => hkey (by simp [e])
    have hkey1 : '%' ∉ key := fun hm => hkey (List.mem_cons_of_mem _ hm)
    rw [List.cons_append, sscanf_run_literal c _ input none hc]
    split
    · exact ih hkey1 _
    · split
      · exact ⟨_, rfl, Or.inr ⟨by decide, rfl⟩⟩
      · split
        · exact ih hkey1 _
        · exact ⟨_, rfl, Or.inr ⟨by decide, rfl⟩⟩

theorem conversions_keyed (k : Char) (key : CStr) (hkey : '%' ∉ key) :
    conversions (key ++ ['%', k]) = 1 := by
  induction key with
  | nil => rfl
  | cons c key ih =>
    have hc : c ≠ '%' := fun e => hkey (by simp [e])
    have hkey1 : '%' ∉ key := fun hm => hkey (List.mem_cons_of_mem _ hm)
    have hstep : conversions (c :: (key ++ ['%', k])) = conversions (key ++ ['%', k]) := by
      cases key with
      | nil =>
        show (if c = '%' then _ else _) = _
        rw [if_neg hc]
      | cons c2 key2 =>
        show (if c = '%' then _ else _) = _
        rw [if_neg hc]
    rw [List.cons_append, hstep]
    exact ih hkey1

/-- The scan `sscanf(t, "<key>%d", &retval)`, when it returns, returns 1 having
stored a number or another count having stored nothing. -/
theorem sscanfInt_keyed (key : CStr) (hkey : '%' ∉ key) (t : CStr) (r : ScanResult Int)
    (h : sscanfInt t (key ++ ['%', 'd']) = .ok r) :
    (∃ v, r = ⟨1, some v⟩) ∨ (r.ret ≠ 1 ∧ r.stored = none) := by
  unfold sscanfInt sscanf at h
  rw [conversions_keyed 'd' key hkey, if_neg (by decide)] at h
  rcases hs : sscanf.run (key ++ ['%', 'd']) t none with e | r1
  · rw [hs] at h; cases h
  · rw [hs] at h
    rcases sscanf_run_keyed 'd' (Or.inl rfl) key hkey t r1 hs with ⟨v, rfl⟩ | ⟨h1, h2⟩
    · cases v with
      | int n => injection h with h; subst h; exact Or.inl ⟨n, rfl⟩
      | str s => cases h
    · obtain ⟨ret, stored⟩ := r1
      simp only at h2
      subst h2
      injection h with h
      subst h
      exact Or.inr ⟨h1, rfl⟩

/-- The scan `sscanf(t, "<key>%s", retval)` returns on every token: 1 having
stored a text, or another count having stored nothing. -/
theorem sscanfStr_keyed (key : CStr) (hkey : '%' ∉ key) (t : CStr) :
    ∃ r, sscanfStr t (key ++ ['%', 's']) = .ok r ∧
      ((∃ text, r = ⟨1, some text⟩) ∨ (r.ret ≠ 1 ∧ r.stored = none)) := by
  obtain ⟨r1, hs, hcases⟩ := sscanf_run_keyed_s key hkey t
  unfold sscanfStr sscanf
  rw [conversions_keyed 's' key hkey, if_neg (by decide), hs]
  rcases hcases with ⟨text, rfl⟩ | ⟨h1, h2⟩
  · exact ⟨⟨1, some text⟩, rfl, Or.inl ⟨text, rfl⟩⟩
  · obtain ⟨ret, stored⟩ := r1
    simp only at h2
    subst h2
    exact ⟨⟨ret, none⟩, rfl, Or.inr ⟨h1, rfl⟩⟩

/-! ## ParseFloat: the contract of ParseInt -/

theorem ParseFloat_loop_miss {F : Type} (scan : Scanner F) (argv : List CPtr) (P : CStr)
    (D : F) (rest : List CStr) :
    ∀ n retval, argv.drop n = rest.map some → (∀ x ∈ rest, Misses scan P x) →
      ParseFloat.loop scan argv (some P) D rest.length n retval = .ok D := by
  induction rest with
  | nil => intro n retval _ _; simp [ParseFloat.loop]
  | cons x xs ih =>
    intro n retval h hm
    rw [List.map_cons] at h
    obtain ⟨r, hr, hne⟩ := hm x (List.mem_cons_self _ _)
    simp only [List.length_cons, ParseFloat.loop, readArgv_of_drop h, deref, hr, if_neg hne]
    exact ih (n + 1) _ (drop_eq_cons h).2 (fun y hy => hm y (List.mem_cons_of_mem _ hy))

theorem ParseFloat_loop_hit {F : Type} (scan : Scanner F) (argv : List CPtr) (P : CStr)
    (D k : F) (t : CStr) (post : List CStr) (ht : scan t P = .ok ⟨1, some k⟩)
    (pre : List CStr) :
    ∀ n retval, argv.drop n = (pre ++ t :: post).map some → (∀ x ∈ pre, Misses scan P x) →
      ParseFloat.loop scan argv (some P) D (pre ++ t :: post).length n retval = .ok k := by
  induction pre with
  | nil =>
    intro n retval h _
    rw [List.nil_append, List.map_cons] at h
    simp [ParseFloat.loop, readArgv_of_drop h, deref, ht, afterScan]
  | cons x xs ih =>
    intro n retval h hm
    rw [List.cons_append, List.map_cons] at h
    obtain ⟨r, hr, hne⟩ := hm x (List.mem_cons_self _ _)
    simp only [List.cons_append, List.length_cons, ParseFloat.loop, readArgv_of_drop h, deref,
      hr, if_neg hne]
    exact ih (n + 1) _ (drop_eq_cons h).2 (fun y hy => hm y (List.mem_cons_of_mem _ hy))

/-- The loop of `ParseFloat` at the type `int` is the loop of `ParseInt`. -/
theorem ParseFloat_loop_eq_ParseInt_loop (scan : Scanner Int) (argv : List CPtr) (arg : CPtr)
    (orelse : Int) :
    ∀ left n retval, ParseFloat.loop scan argv arg orelse left n retval
      = ParseInt.loop scan argv arg orelse left n retval := by
  intro left
  induction left with
  | zero => intro n retval; rfl
  | succ l ih =>
    intro n retval
    rcases hr : readArgv argv n with e | p
    · simp only [ParseFloat.loop, ParseInt.loop, hr]
    · cases p with
      | none => simp only [ParseFloat.loop, ParseInt.loop, hr, deref]
      | some s =>
        cases arg with
        | none => simp only [ParseFloat.loop, ParseInt.loop, hr, deref]
        | some f =>
          rcases hs : scan s f with e | r
          · simp only [ParseFloat.loop, ParseInt.loop, hr, deref, hs]
          · simp only [ParseFloat.loop, ParseInt.loop, hr, deref, hs, ih]
            by_cases h1 : r.ret = 1
            · rw [if_pos h1, if_pos h1]
              cases afterScan r retval <;> rfl
            · rw [if_neg h1, if_neg h1]

/-- On a scan that stores a value whenever it returns 1, the loops of the two
queries compute the contract of the specification. -/
theorem ParseFloat_loop_contract {F : Type} (scan : Scanner F) (argv : List CPtr) (P : CStr)
    (D : F) (hstore : ∀ t r, scan t P = .ok r → r.ret = 1 → r.stored ≠ none)
    (rest : List CStr) :
    ∀ n retval, argv.drop n = rest.map some →
      ParseFloat.loop scan argv (some P) D rest.length n retval
        = firstMatchOrDefault scan P D rest := by
  induction rest with
  | nil => intro n retval _; rfl
  | cons x xs ih =>
    intro n retval h
    rw [List.map_cons] at h
    simp only [List.length_cons, ParseFloat.loop, readArgv_of_drop h, deref,
      firstMatchOrDefault]
    cases hs : scan x P with
    | error e => rfl
    | ok r =>
      dsimp only
      by_cases h1 : r.ret = 1
      · rw [if_pos h1, if_pos h1]
        cases hst : r.stored with
        | none => exact absurd hst (hstore x r hs h1)
        | some v => simp [afterScan, hst]
      · rw [if_neg h1, if_neg h1]
        exact ih (n + 1) _ (drop_eq_cons h).2

/-- C12. `ParseFloat` has the contract of `ParseInt`, for values of any type
`F` in the place of `float`: it returns the value captured from the first token
on which the scan returns 1, and the default when the scan returns another
count on every token; at the type `int` it is `ParseInt`, and both compute the
first-match-or-default scan of the specification. -/
theorem ParseFloat_same_contract {F : Type} (scan : Scanner F) (V : List CStr) (P : CStr)
    (D : F) :
    (∀ (i : Nat) (hi : i < V.length) (k : F), scan V[i] P = .ok ⟨1, some k⟩ →
      (∀ j, ∀ hj : j < i, ∃ r, scan (V[j]) P = .ok r ∧ r.ret ≠ 1) →
      ParseFloat scan V.length (V.map some) (some P) D = .ok k) ∧
    ((∀ t ∈ V, ∃ r, scan t P = .ok r ∧ r.ret ≠ 1) →
      ParseFloat scan V.length (V.map some) (some P) D = .ok D) ∧
    (∀ (scanI : Scanner Int) (argc : Int) (argv : List CPtr) (arg : CPtr) (orelse : Int),
      ParseFloat scanI argc argv arg orelse = ParseInt scanI argc argv arg orelse) ∧
    ((∀ t r, scan t P = .ok r → r.ret = 1 → r.stored ≠ none) →
      ParseFloat scan V.length (V.map some) (some P) D = firstMatchOrDefault scan P D V) ∧
    (∀ (scanI : Scanner Int) (DI : Int),
      (∀ t r, scanI t P = .ok r → r.ret = 1 → r.stored ≠ none) →
      ParseInt scanI V.length (V.map some) (some P) DI = firstMatchOrDefault scanI P DI V) := by
  refine ⟨?_, ?_, ?_, ?_, ?_⟩
  · intro i hi k hmatch hfirst
    have hpre : ∀ x ∈ V.take i, Misses scan P x := by
      intro x hx
      obtain ⟨j, hj, hjl, rfl⟩ := mem_take_index V i x hx
      exact hfirst j hj
    have h := ParseFloat_loop_hit scan (V.map some) P D k V[i] (V.drop (i + 1)) hmatch
      (V.take i) 0 none (by simp) hpre
    rw [← split_at_index V i hi] at h
    simpa [ParseFloat] using h
  · intro hnone
    have h := ParseFloat_loop_miss scan (V.map some) P D V 0 none (by simp) hnone
    simpa [ParseFloat] using h
  · intro scanI argc argv arg orelse
    exact ParseFloat_loop_eq_ParseInt_loop scanI argv arg orelse _ _ _
  · intro hstore
    have h := ParseFloat_loop_contract scan (V.map some) P D hstore V 0 none (by simp)
    simpa [ParseFloat] using h
  · intro scanI DI hstore
    have h := ParseFloat_loop_contract scanI (V.map some) P DI hstore V 0 none (by simp)
    rw [ParseFloat_loop_eq_ParseInt_loop] at h
    simpa [ParseInt] using h

/-- Witness of C12: numbers captured by `--num=%d` play the part of the float
values; `--num=7` at index 1 is the first match, and `prog -v` has no match. -/
theorem ParseFloat_same_contract_witness :
    ParseFloat sscanfInt 3 [some "prog".toList, some "--num=7".toList, some "--num=8".toList]
      (some "--num=%d".toList) 5 = .ok 7 ∧
    ParseFloat sscanfInt 2 [some "prog".toList, some "-v".toList]
      (some "--num=%d".toList) 5 = .ok 5 ∧
    ParseFloat sscanfInt 3 [some "prog".toList, some "--num=7".toList, some "--num=8".toList]
      (some "--num=%d".toList) 5
      = firstMatchOrDefault sscanfInt "--num=%d".toList 5
          ["prog".toList, "--num=7".toList, "--num=8".toList] ∧
    ParseInt sscanfInt 3 [some "prog".toList, some "--num=7".toList, some "--num=8".toList]
      (some "--num=%d".toList) 5
      = firstMatchOrDefault sscanfInt "--num=%d".toList 5
          ["prog".toList, "--num=7".toList, "--num=8".toList] := by
  have hprog : sscanfInt "prog".toList "--num=%d".toList = .ok ⟨0, none⟩ := by decide
  have hv : sscanfInt "-v".toList "--num=%d".toList = .ok ⟨0, none⟩ := by decide
  have hstore : ∀ t r, sscanfInt t "--num=%d".toList = .ok r → r.ret = 1 → r.stored ≠ none := by
    intro t r h h1
    rcases sscanfInt_keyed "--num=".toList (by decide) t r h with ⟨v, rfl⟩ | ⟨hne, -⟩
    · simp
    · exact absurd h1 hne
  refine ⟨?_, ?_, ?_, ?_⟩
  · exact (ParseFloat_same_contract sscanfInt
      ["prog".toList, "--num=7".toList, "--num=8".toList] "--num=%d".toList 5).1
      1 (by decide) 7 (by decide)
      (fun j hj => by
        have h0 : j = 0 := by omega
        subst h0
        exact ⟨⟨0, none⟩, hprog, by decide⟩)
  · exact (ParseFloat_same_contract sscanfInt ["prog".toList, "-v".toList]
      "--num=%d".toList 5).2.1
      (fun t ht => by
        simp only [List.mem_cons, List.mem_singleton, List.not_mem_nil, or_false] at ht
        rcases ht with rfl | rfl
        · exact ⟨⟨0, none⟩, hprog, by decide⟩
        · exact ⟨⟨0, none⟩, hv, by decide⟩)
  · exact (ParseFloat_same_contract sscanfInt
      ["prog".toList, "--num=7".toList, "--num=8".toList] "--num=%d".toList 5).2.2.2.1 hstore
  · exact (ParseFloat_same_contract sscanfInt
      ["prog".toList, "--num=7".toList, "--num=8".toList] "--num=%d".toList 5).2.2.2.2
      sscanfInt 5 hstore

/-! ## GetArgs: the stores of the loop -/

/-- On non-null tokens the loop of `GetArgs` stores the positional tokens, in
order, at the consecutive indices from `k` on. -/
theorem GetArgs_stores_spec (argv : List CPtr) (rest : List CStr) :
    ∀ n k, argv.drop n = rest.map some →
      ∃ ws, GetArgs.stores argv rest.length n k = .ok ws ∧
        ws.map Prod.fst = List.range' k (rest.countP positional) ∧
        ws.map Prod.snd = (rest.filter positional).map some := by
  induction rest with
  | nil => intro n k _; exact ⟨[], rfl, rfl, rfl⟩
  | cons x xs ih =>
    intro n k h
    rw [List.map_cons] at h
    obtain ⟨c, hc, hiff⟩ := charAt_test x
    simp only [List.length_cons, GetArgs.stores, readArgv_of_drop h, hc]
    by_cases hp : positional x = true
    · obtain ⟨ws, hws, hfst, hsnd⟩ := ih (n + 1) (k + 1) (drop_eq_cons h).2
      rw [if_pos (hiff.mpr hp), hws]
      refine ⟨(k, some x) :: ws, rfl, ?_, ?_⟩
      · rw [List.countP_cons_of_pos _ _ hp, List.map_cons, hfst, List.range'_succ]
      · rw [List.filter_cons_of_pos hp, List.map_cons, hsnd, List.map_cons]
    · obtain ⟨ws, hws, hfst, hsnd⟩ := ih (n + 1) k (drop_eq_cons h).2
      rw [if_neg (fun hcond => hp (hiff.mp hcond)), hws]
      refine ⟨ws, rfl, ?_, ?_⟩
      · rw [List.countP_cons_of_neg _ _ hp, hfst]
      · rw [List.filter_cons_of_neg hp, hsnd]

/-- The loop of `GetArgs` on a block is the replay of its stores on the block. -/
theorem GetArgs_loop_eq_replay (argv : List CPtr) (rest : List CStr) :
    ∀ n k (b : Block), argv.drop n = rest.map some →
      ∃ ws, GetArgs.stores argv rest.length n k = .ok ws ∧
        GetArgs.loop argv rest.length n k b
          = Except.map (fun b1 => (k + ws.length, b1)) (Block.replay b ws) := by
  induction rest with
  | nil => intro n k b _; exact ⟨[], rfl, rfl⟩
  | cons x xs ih =>
    intro n k b h
    rw [List.map_cons] at h
    obtain ⟨c, hc, hiff⟩ := charAt_test x
    simp only [List.length_cons, GetArgs.stores, GetArgs.loop, readArgv_of_drop h, hc]
    by_cases hp : positional x = true
    · rw [if_pos (hiff.mpr hp), if_pos (hiff.mpr hp)]
      rcases hst : Block.store b k (some x) with e | b1
      · obtain ⟨ws, hws, -⟩ := ih (n + 1) (k + 1) b (drop_eq_cons h).2
        rw [hws]
        exact ⟨(k, some x) :: ws, rfl, by simp [Block.replay, hst, Except.map]⟩
      · obtain ⟨ws, hws, hloop⟩ := ih (n + 1) (k + 1) b1 (drop_eq_cons h).2
        rw [hws]
        refine ⟨(k, some x) :: ws, rfl, ?_⟩
        simp only [hloop, Block.replay, hst, List.length_cons]
        have : k + 1 + ws.length = k + (ws.length + 1) := by omega
        rw [this]
    · rw [if_neg (fun hcond => hp (hiff.mp hcond)), if_neg (fun hcond => hp (hiff.mp hcond))]
      exact ih (n + 1) k b (drop_eq_cons h).2

/-- Stores at the indices `0, 1, ..`: all below `slots` exactly when their
number is at most `slots`. -/
theorem stores_within_iff (ws : List (Nat × CPtr)) (slots : Nat)
    (h : ws.map Prod.fst = List.range' 0 ws.length) :
    (∀ w ∈ ws, w.1 < slots) ↔ ws.length ≤ slots := by
  constructor
  · intro hall
    by_contra hgt
    have hmem : slots ∈ ws.map Prod.fst := by
      rw [h, List.mem_range']
      exact ⟨slots, by omega, by omega⟩
    obtain ⟨w, hw, hw1⟩ := List.mem_map.mp hmem
    have := hall w hw
    omega
  · intro hle w hw
    have hmem : w.1 ∈ ws.map Prod.fst := List.mem_map.mpr ⟨w, hw, rfl⟩
    rw [h, List.mem_range'] at hmem
    obtain ⟨i, hi, hi2⟩ := hmem
    omega

/-- Counterexample to C14 as stated, at `ArgCount = -1`. On `prog` alone
nothing is written, so every write is inside any allocation, while `ArgCount`
is below the count 0. On `prog a`, with an allocator that refuses a request of
`2^64 - 8` bytes, the call returns before its loop and writes nothing, while the
count is 1. -/
theorem GetArgs_writes_counterexample :
    (CountArgs 1 [some "prog".toList] = .ok 0 ∧
      GetArgs.writes (fun _ => true) 1 [some "prog".toList] (-1) = .ok [] ∧
      ¬ ((∀ w ∈ ([] : List (Nat × CPtr)), (w.1 : Int) < -1) ↔ (0 : Int) ≤ -1)) ∧
    (requestBytes (-1) = 2 ^ 64 - 8 ∧
      CountArgs 2 [some "prog".toList, some "a".toList] = .ok 1 ∧
      GetArgs.writes (fun bytes => decide (bytes < 2 ^ 63)) 2
        [some "prog".toList, some "a".toList] (-1) = .ok []) := by
  refine ⟨⟨by decide, by decide, ?_⟩, by decide, by decide, by decide⟩
  intro h
  have := h.mp (fun w hw => absurd hw (List.not_mem_nil w))
  omega

/-- C14, amended. On a vector `V` of non-null tokens, when the allocation
succeeds, the stores of `GetArgs` are as many as the count `c` of `CountArgs`,
the i-th goes to index i and holds the i-th positional token, and they are
the same for every `ArgCount` whose allocation succeeds; the call is the replay
of these stores on its block. For `0 ≤ ArgCount` every store lands inside the
block of `ArgCount` slots exactly when `c ≤ ArgCount`, and exactly then the call
returns a block. -/
theorem GetArgs_writes_count (malloc : Nat → Bool) (V : List CStr) (ArgCount c : Int)
    (hc : CountArgs V.length (V.map some) = .ok c)
    (halloc : malloc (requestBytes ArgCount) = true) :
    ∃ ws, GetArgs.writes malloc V.length (V.map some) ArgCount = .ok ws ∧
      (ws.length : Int) = c ∧
      ws.map Prod.fst = List.range ws.length ∧
      ws.map Prod.snd = (V.tail.filter positional).map some ∧
      (∀ (malloc2 : Nat → Bool) (ArgCount2 : Int), malloc2 (requestBytes ArgCount2) = true →
        GetArgs.writes malloc2 V.length (V.map some) ArgCount2 = .ok ws) ∧
      GetArgs malloc V.length (V.map some) ArgCount
        = Except.map some
            (Block.replay (List.replicate (requestBytes ArgCount / pointerSize) none) ws) ∧
      (0 ≤ ArgCount → ArgCount < 2 ^ 31 →
        requestBytes ArgCount / pointerSize = ArgCount.toNat ∧
        ((∀ w ∈ ws, (w.1 : Int) < ArgCount) ↔ c ≤ ArgCount) ∧
        ((∃ b : Block, GetArgs malloc V.length (V.map some) ArgCount = .ok (some b))
          ↔ c ≤ ArgCount)) := by
  rw [CountArgs_eq] at hc
  have hcv : (V.tail.countP positional : Int) = c := by injection hc
  subst hcv
  obtain ⟨hdrop, hlen⟩ := GetArgs_loop_start V
  obtain ⟨ws, hws, hfst, hsnd⟩ := GetArgs_stores_spec (V.map some) V.tail 1 0 hdrop
  have hwlen : ws.length = V.tail.countP positional := by
    have := congrArg List.length hfst
    simpa using this
  have hfst0 : ws.map Prod.fst = List.range' 0 ws.length := by rw [hfst, hwlen]
  have hwrites : ∀ (malloc2 : Nat → Bool) (ArgCount2 : Int),
      malloc2 (requestBytes ArgCount2) = true →
      GetArgs.writes malloc2 V.length (V.map some) ArgCount2 = .ok ws := by
    intro malloc2 ArgCount2 h2
    rw [GetArgs.writes, if_pos h2, hlen, hws]
  obtain ⟨ws1, hws1, hloop⟩ := GetArgs_loop_eq_replay (V.map some) V.tail 1 0
    (List.replicate (requestBytes ArgCount / pointerSize) none) hdrop
  have hsame : ws1 = ws := by
    rw [hws] at hws1
    injection hws1 with h
    exact h.symm
  subst hsame
  have hget : GetArgs malloc V.length (V.map some) ArgCount
      = Except.map some
          (Block.replay (List.replicate (requestBytes ArgCount / pointerSize) none) ws1) := by
    rw [GetArgs, if_pos halloc, hlen, hloop]
    cases Block.replay (List.replicate (requestBytes ArgCount / pointerSize) none) ws1 <;> rfl
  refine ⟨ws1, hwrites malloc ArgCount halloc, by rw [hwlen], ?_, hsnd, hwrites, hget, ?_⟩
  · rw [hfst0, List.range_eq_range']
  · intro h0 hint
    have hslots := requestBytes_slots ArgCount h0 hint
    have hin : (∀ w ∈ ws1, (w.1 : Int) < ArgCount) ↔ (V.tail.countP positional : Int) ≤ ArgCount := by
      have hiff := stores_within_iff ws1 ArgCount.toNat hfst0
      rw [hwlen] at hiff
      constructor
      · intro hall
        have : V.tail.countP positional ≤ ArgCount.toNat :=
          hiff.mp (fun w hw => by have := hall w hw; omega)
        omega
      · intro hle w hw
        have := hiff.mpr (by omega) w hw
        omega
    refine ⟨hslots, hin, ?_⟩
    constructor
    · rintro ⟨b, hb⟩
      by_contra hgt
      have hroom : ArgCount.toNat < V.tail.countP positional := by omega
      have hov := GetArgs_loop_overflow (V.map some) V.tail 1 [] ArgCount.toNat hdrop hroom
      simp only [List.length_nil, List.nil_append, Nat.zero_add] at hov
      rw [GetArgs, if_pos halloc, hslots, hlen, hov] at hb
      cases hb
    · intro hle
      exact ⟨_, GetArgs_of_room malloc V ArgCount h0 hint halloc (by omega)⟩

/-- Witness of the amended C14: the example command line with `ArgCount = 3`,
whose three stores are also those of the call with `ArgCount = 5`. -/
theorem GetArgs_writes_count_witness :
    ∃ ws, GetArgs.writes (fun _ => true) 6 (exampleArgv.map some) 3 = .ok ws ∧
      (ws.length : Int) = 3 ∧
      ws.map Prod.fst = List.range ws.length ∧
      GetArgs.writes (fun _ => true) 6 (exampleArgv.map some) 5 = .ok ws ∧
      ((∀ w ∈ ws, (w.1 : Int) < 3) ↔ (3 : Int) ≤ 3) ∧
      ((∃ b : Block, GetArgs (fun _ => true) 6 (exampleArgv.map some) 3 = .ok (some b))
        ↔ (3 : Int) ≤ 3) := by
  obtain ⟨ws, h1, h2, h3, -, h5, -, h7⟩ :=
    GetArgs_writes_count (fun _ => true) exampleArgv 3 3 (by decide) (by decide)
  exact ⟨ws, h1, h2, h3, h5 (fun _ => true) 5 rfl, (h7 (by decide) (by decide)).2.1,
    (h7 (by decide) (by decide)).2.2⟩

/-! ## Empty tokens -/

/-- C15. An empty token at an index `≥ 1` is positional for both operations:
the first unit `CountArgs` and `GetArgs` read in it is the terminator, not `-`;
with the token the count `c` of `CountArgs` is one more than without it, and
`GetArgs` with `ArgCount = c` returns the block of the positional tokens in
order, the empty string in its place between those before and those after. -/
theorem empty_token_is_positional (malloc : Nat → Bool) (t0 : CStr) (pre post : List CStr)
    (c : Int)
    (hc : CountArgs (t0 :: (pre ++ [] :: post)).length ((t0 :: (pre ++ [] :: post)).map some)
      = .ok c)
    (hint : c < 2 ^ 31) (halloc : malloc (requestBytes c) = true) :
    charAt (some []) 0 = .ok (Char.ofNat 0) ∧ Char.ofNat 0 ≠ '-' ∧
    positional [] = true ∧
    CountArgs (t0 :: (pre ++ post)).length ((t0 :: (pre ++ post)).map some) = .ok (c - 1) ∧
    GetArgs malloc (t0 :: (pre ++ [] :: post)).length ((t0 :: (pre ++ [] :: post)).map some) c
      = .ok (some ((pre.filter positional).map slotOf
          ++ slotOf [] :: (post.filter positional).map slotOf)) := by
  have hpos : positional [] = true := by decide
  rw [CountArgs_eq] at hc
  have hcv : (((t0 :: (pre ++ [] :: post)).tail.countP positional : Nat) : Int) = c := by
    injection hc
  have hcount : (t0 :: (pre ++ [] :: post)).tail.countP positional
      = pre.countP positional + (post.countP positional + 1) := by
    simp [List.countP_append, List.countP_cons, hpos]
  refine ⟨rfl, by decide, hpos, ?_, ?_⟩
  · rw [CountArgs_eq]
    have : (t0 :: (pre ++ post)).tail.countP positional
        = pre.countP positional + post.countP positional := by
      simp [List.countP_append]
    rw [this]
    congr 1
    omega
  · have h0 : (0 : Int) ≤ c := by omega
    have hroom : (t0 :: (pre ++ [] :: post)).tail.countP positional ≤ c.toNat := by omega
    rw [GetArgs_of_room malloc _ c h0 hint halloc hroom]
    have hz : c.toNat - (t0 :: (pre ++ [] :: post)).tail.countP positional = 0 := by omega
    rw [hz]
    simp [List.filter_append, List.filter_cons, hpos]

/-- Witness of C15: `prog -x "" b`, whose empty token at index 2 is the first
of two positional tokens. -/
theorem empty_token_is_positional_witness :
    charAt (some []) 0 = .ok (Char.ofNat 0) ∧ Char.ofNat 0 ≠ '-' ∧
    positional [] = true ∧
    CountArgs 3 [some "prog".toList, some "-x".toList, some "b".toList] = .ok 1 ∧
    GetArgs (fun _ => true) 4
        [some "prog".toList, some "-x".toList, some [], some "b".toList] 2
      = .ok (some [slotOf [], slotOf "b".toList]) :=
  empty_token_is_positional (fun _ => true) "prog".toList ["-x".toList] ["b".toList] 2
    (by decide) (by decide) (by decide)

/-! ## Stability of the scans under extension -/

/-- Once the flag is among the tokens that follow index `n`, the loop of
`ParseFlag` returns 1 whatever comes after them. -/
theorem ParseFlag_loop_found (argv : List CPtr) (F : CStr) (W : List CPtr)
    (rest : List CStr) :
    ∀ n m, argv.drop n = rest.map some ++ W → F ∈ rest →
      ParseFlag.loop argv (some F) (rest.length + m) n = .ok 1 := by
  induction rest with
  | nil => intro n m _ h; cases h
  | cons x xs ih =>
    intro n m h hmem
    rw [List.map_cons, List.cons_append] at h
    have hlen : (x :: xs).length + m = (xs.length + m) + 1 := by
      simp only [List.length_cons]; omega
    rw [hlen]
    simp only [ParseFlag.loop, readArgv_of_drop h, deref, strcmp_eq_zero_iff]
    by_cases hx : x = F
    · rw [if_pos hx]
    · rw [if_neg hx]
      have hin : F ∈ xs := by
        rcases List.mem_cons.mp hmem with e | e
        · exact absurd e.symm hx
        · exact e
      exact ih (n + 1) m (drop_eq_cons h).2 hin

/-- Two runs of the loop of `ParseInt` on vectors that share the tokens `rest`
from index `n` on, one of which the scan returns 1 on, agree: both stop within
`rest`. -/
theorem ParseInt_loop_stable (scan : Scanner Int) (P : CStr) (D : Int)
    (argv1 argv2 W1 W2 : List CPtr) (rest : List CStr) :
    ∀ n m1 m2 retval, argv1.drop n = rest.map some ++ W1 →
      argv2.drop n = rest.map some ++ W2 →
      (∃ t ∈ rest, ∃ r, scan t P = .ok r ∧ r.ret = 1) →
      ParseInt.loop scan argv1 (some P) D (rest.length + m1) n retval
        = ParseInt.loop scan argv2 (some P) D (rest.length + m2) n retval := by
  induction rest with
  | nil =>
    intro n m1 m2 retval _ _ h
    obtain ⟨t, ht, -⟩ := h
    cases ht
  | cons x xs ih =>
    intro n m1 m2 retval h1 h2 hmatch
    rw [List.map_cons, List.cons_append] at h1 h2
    have hlen : ∀ m, (x :: xs).length + m = (xs.length + m) + 1 := by
      intro m; simp only [List.length_cons]; omega
    rw [hlen m1, hlen m2]
    simp only [ParseInt.loop, readArgv_of_drop h1, readArgv_of_drop h2, deref]
    rcases hs : scan x P with e | r
    · rfl
    · dsimp only
      by_cases hr : r.ret = 1
      · rw [if_pos hr, if_pos hr]
      · rw [if_neg hr, if_neg hr]
        apply ih (n + 1) m1 m2 _ (drop_eq_cons h1).2 (drop_eq_cons h2).2
        obtain ⟨t, ht, r1, hr1, hone⟩ := hmatch
        rcases List.mem_cons.mp ht with e | e
        · subst e
          rw [hs] at hr1
          injection hr1 with hr1
          subst hr1
          exact absurd hone hr
        · exact ⟨t, e, r1, hr1, hone⟩

/-- C16. The scans are stable under extension of the vector by any pointers
`W`, null ones included: if `ParseFlag` returns 1 on `V` it returns 1 on `V`
followed by `W`; and if the scan with the template `P` returns 1 on some token
of `V`, `ParseInt` gives on `V` followed by `W` what it gives on `V`, for every
default. -/
theorem scans_stable_under_extension (scan : Scanner Int) (V : List CStr) (W : List CPtr)
    (F P : CStr) :
    (ParseFlag V.length (V.map some) (some F) = .ok 1 →
      ParseFlag (V.length + W.length) (V.map some ++ W) (some F) = .ok 1) ∧
    ((∃ t ∈ V, ∃ r, scan t P = .ok r ∧ r.ret = 1) →
      ∀ D : Int, ParseInt scan (V.length + W.length) (V.map some ++ W) (some P) D
        = ParseInt scan V.length (V.map some) (some P) D) := by
  constructor
  · intro h
    have hmem : F ∈ V := by
      rw [ParseFlag_eq] at h
      by_contra hn
      rw [if_neg hn] at h
      cases h
    have := ParseFlag_loop_found (V.map some ++ W) F W V 0 W.length (by simp) hmem
    have hcast : ((V.length : Int) + (W.length : Int)).toNat = V.length + W.length := by omega
    rw [ParseFlag, hcast]
    exact this
  · intro hmatch D
    have := ParseInt_loop_stable scan P D (V.map some ++ W) (V.map some) W [] V 0 W.length 0
      none (by simp) (by simp) hmatch
    have hcast : ((V.length : Int) + (W.length : Int)).toNat = V.length + W.length := by omega
    rw [ParseInt, ParseInt, hcast, Int.toNat_ofNat]
    simpa using this

/-- Witness of C16: `prog -h --num=7` extended by `--num=8`, a null pointer
and `-h`. -/
theorem scans_stable_under_extension_witness :
    ParseFlag 6
        [some "prog".toList, some "-h".toList, some "--num=7".toList,
          some "--num=8".toList, none, some "-h".toList]
        (some "-h".toList) = .ok 1 ∧
    ParseInt sscanfInt 6
        [some "prog".toList, some "-h".toList, some "--num=7".toList,
          some "--num=8".toList, none, some "-h".toList]
        (some "--num=%d".toList) 5
      = ParseInt sscanfInt 3
        [some "prog".toList, some "-h".toList, some "--num=7".toList]
        (some "--num=%d".toList) 5 :=
  ⟨(scans_stable_under_extension sscanfInt
      ["prog".toList, "-h".toList, "--num=7".toList]
      [some "--num=8".toList, none, some "-h".toList] "-h".toList "--num=%d".toList).1
      (by decide),
   (scans_stable_under_extension sscanfInt
      ["prog".toList, "-h".toList, "--num=7".toList]
      [some "--num=8".toList, none, some "-h".toList] "-h".toList "--num=%d".toList).2
      ⟨"--num=7".toList, by decide, ⟨1, some 7⟩, by decide, rfl⟩ 5⟩

/-! ## ParseString: the bound on the captured text -/

/-- The store into the buffer succeeds exactly when the units written fit. -/
theorem storeText_iff_units (r : ScanResult CStr) (buf : Option CStr) :
    (∃ buf1, storeText r buf = .ok buf1) ↔ unitsStored r ≤ bufferUnits := by
  unfold storeText unitsStored
  cases r.stored with
  | none => simp
  | some t =>
    dsimp only
    by_cases h : t.length + 1 ≤ bufferUnits
    · simp [h]
    · simp [h]

theorem ParseString_loop_hit_overflow (scan : Scanner CStr) (argv : List CPtr) (P : CStr)
    (D : CPtr) (t text : CStr) (post : List CStr) (ht : scan t P = .ok ⟨1, some text⟩)
    (hlong : 1023 < text.length) (pre : List CStr) :
    ∀ n buf, argv.drop n = (pre ++ t :: post).map some → (∀ x ∈ pre, MissesWithin scan P x) →
      ParseString.loop scan argv (some P) D (pre ++ t :: post).length n buf
        = .error (.storeOutOfBounds bufferUnits bufferUnits) := by
  induction pre with
  | nil =>
    intro n buf h _
    rw [List.nil_append, List.map_cons] at h
    have hs : storeText ⟨1, some text⟩ buf
        = .error (.storeOutOfBounds bufferUnits bufferUnits) := by
      have : ¬ text.length + 1 ≤ bufferUnits := by unfold bufferUnits; omega
      simp [storeText, this]
    simp [ParseString.loop, readArgv_of_drop h, deref, ht, hs]
  | cons x xs ih =>
    intro n buf h hm
    rw [List.cons_append, List.map_cons] at h
    obtain ⟨r, hr, hne, hfitx⟩ := hm x (List.mem_cons_self _ _)
    obtain ⟨buf1, hb⟩ := storeText_within r buf hfitx
    simp only [List.cons_append, List.length_cons, ParseString.loop, readArgv_of_drop h, deref,
      hr, hb, if_neg hne]
    exact ih (n + 1) _ (drop_eq_cons h).2 (fun y hy => hm y (List.mem_cons_of_mem _ hy))

/-- The scan of a token made of the key and a value without white space, with
the key followed by `%s`, captures the whole value. -/
theorem sscanfStr_key_value (key value : CStr)
    (hkey : ∀ c ∈ key, c ≠ '%' ∧ isspace c = false) (hne : value ≠ [])
    (hvalue : ∀ c ∈ value, isspace c = false) :
    sscanfStr (key ++ value) (key ++ ['%', 's']) = .ok ⟨1, some value⟩ := by
  have hpct : '%' ∉ key := fun hm => (hkey '%' hm).1 rfl
  have hrun : sscanf.run (key ++ ['%', 's']) (key ++ value) none
      = .ok ⟨1, some (.str value)⟩ := by
    induction key with
    | nil =>
      rw [List.nil_append, List.nil_append, sscanf_run_percent_s]
      cases value with
      | nil => exact absurd rfl hne
      | cons v vs =>
        have hv : isspace v = false := hvalue v (List.mem_cons_self _ _)
        have htake : (v :: vs).takeWhile (fun x => !isspace x) = v :: vs := by
          rw [List.takeWhile_eq_self_iff]
          intro c hc
          simp [hvalue c hc]
        have hcs : convertS (v :: vs)
            = .converted (.str (v :: vs)) ((v :: vs).dropWhile (fun x => !isspace x)) := by
          unfold convertS
          rw [List.dropWhile_cons_of_neg (by simp [hv])]
          dsimp only
          rw [htake]
        rw [hcs]
        rfl
    | cons c key ih =>
      have hc := hkey c (List.mem_cons_self _ _)
      rw [List.cons_append, List.cons_append, sscanf_run_literal c _ _ none hc.1]
      simp only [hc.2, Bool.false_eq_true, if_false, if_true]
      exact ih (fun d hd => hkey d (List.mem_cons_of_mem _ hd))
        (fun hm => (hkey '%' (List.mem_cons_of_mem _ hm)).1 rfl)
  unfold sscanfStr sscanf
  rw [conversions_keyed 's' key hpct, if_neg (by decide), hrun]

/-- C17. With a pattern made of a key without `%` followed by `%s`, the
allocation succeeding, and `text` the text captured from the first matching
token: if `text` has at most 1023 characters the scan writes at most the 1024
units of the buffer and `ParseString` returns the buffer holding the whole of
`text`; if it has more, nothing in `ParseString` stops the scan, which writes
past the block. A value without white space after the key is captured whole. -/
theorem ParseString_bound_is_precondition (malloc : Nat → Bool) (V : List CStr)
    (key : CStr) (D : CPtr) (hkey : '%' ∉ key) (halloc : malloc (bufferUnits * 1) = true)
    (i : Nat) (hi : i < V.length) (text : CStr)
    (hmatch : sscanfStr V[i] (key ++ ['%', 's']) = .ok ⟨1, some text⟩)
    (hfirst : ∀ j, ∀ hj : j < i, ∀ r, sscanfStr (V[j]) (key ++ ['%', 's']) = .ok r → r.ret ≠ 1) :
    (text.length ≤ 1023 →
      unitsStored ⟨1, some text⟩ = text.length + 1 ∧
      unitsStored ⟨1, some text⟩ ≤ bufferUnits ∧
      ParseString malloc sscanfStr V.length (V.map some) (some (key ++ ['%', 's'])) D
        = .ok ⟨.buffer (some text), 1⟩) ∧
    (1023 < text.length →
      bufferUnits < unitsStored ⟨1, some text⟩ ∧
      ParseString malloc sscanfStr V.length (V.map some) (some (key ++ ['%', 's'])) D
        = .error (.storeOutOfBounds bufferUnits bufferUnits)) ∧
    (∀ value : CStr, (∀ c ∈ key, isspace c = false) → value ≠ [] →
      (∀ c ∈ value, isspace c = false) →
      sscanfStr (key ++ value) (key ++ ['%', 's']) = .ok ⟨1, some value⟩) := by
  have hpre : ∀ x ∈ V.take i, MissesWithin sscanfStr (key ++ ['%', 's']) x := by
    intro x hx
    obtain ⟨j, hj, hjl, rfl⟩ := mem_take_index V i x hx
    obtain ⟨r, hr, hcases⟩ := sscanfStr_keyed key hkey V[j]
    rcases hcases with ⟨tx, rfl⟩ | ⟨h1, h2⟩
    · exact absurd rfl (hfirst j hj _ hr)
    · exact ⟨r, hr, h1, fun s hs => by rw [h2] at hs; cases hs⟩
  refine ⟨?_, ?_, ?_⟩
  · intro hfit
    have h := ParseString_loop_hit sscanfStr (V.map some) (key ++ ['%', 's']) D V[i] text
      (V.drop (i + 1)) hmatch hfit (V.take i) 0 none (by simp) hpre
    rw [← split_at_index V i hi] at h
    refine ⟨rfl, ?_, ?_⟩
    · show text.length + 1 ≤ 1024
      omega
    · simp only [ParseString, if_pos halloc, Int.toNat_ofNat, h]
  · intro hlong
    have h := ParseString_loop_hit_overflow sscanfStr (V.map some) (key ++ ['%', 's']) D V[i]
      text (V.drop (i + 1)) hmatch hlong (V.take i) 0 none (by simp) hpre
    rw [← split_at_index V i hi] at h
    refine ⟨?_, ?_⟩
    · show 1024 < text.length + 1
      omega
    · simp only [ParseString, if_pos halloc, Int.toNat_ofNat, h]
  · intro value hsp hne hvalue
    exact sscanfStr_key_value key value
      (fun c hc => ⟨fun e => hkey (e ▸ hc), hsp c hc⟩) hne hvalue

set_option maxRecDepth 100000 in
/-- Witness of C17: `--name=foo` at index 1 is the first match of `--name=%s`
and the three characters of `foo` fit the buffer; the 1024 characters captured
from the long token do not. -/
theorem ParseString_bound_is_precondition_witness :
    (unitsStored ⟨1, some "foo".toList⟩ = 4 ∧
      unitsStored ⟨1, some "foo".toList⟩ ≤ bufferUnits ∧
      ParseString (fun _ => true) sscanfStr 2 [some "prog".toList, some "--name=foo".toList]
          (some "--name=%s".toList) (some "default".toList)
        = .ok ⟨.buffer (some "foo".toList), 1⟩) ∧
    (bufferUnits < unitsStored ⟨1, some (List.replicate 1024 'a')⟩ ∧
      ParseString (fun _ => true) sscanfStr 1 [some longToken]
          (some "--name=%s".toList) (some "default".toList)
        = .error (.storeOutOfBounds bufferUnits bufferUnits)) ∧
    sscanfStr "--name=foo".toList "--name=%s".toList = .ok ⟨1, some "foo".toList⟩ := by
  have hprog : ∀ r, sscanfStr "prog".toList ("--name=".toList ++ ['%', 's']) = .ok r →
      r.ret ≠ 1 := by
    intro r hr
    have hs : sscanfStr "prog".toList ("--name=".toList ++ ['%', 's']) = .ok ⟨0, none⟩ := by
      decide
    rw [hs] at hr
    injection hr with hr
    subst hr
    decide
  refine ⟨?_, ?_, ?_⟩
  · exact (ParseString_bound_is_precondition (fun _ => true)
      ["prog".toList, "--name=foo".toList] "--name=".toList (some "default".toList)
      (by decide) rfl 1 (by decide) "foo".toList (by decide)
      (fun j hj r hr => by
        have h0 : j = 0 := by omega
        subst h0
        exact hprog r hr)).1 (by decide)
  · exact (ParseString_bound_is_precondition (fun _ => true) [longToken]
      "--name=".toList (some "default".toList) (by decide) rfl 0 (by decide)
      (List.replicate 1024 'a') (by decide)
      (fun j hj r hr => absurd hj (Nat.not_lt_zero j))).2.1 (by decide)
  · exact (ParseString_bound_is_precondition (fun _ => true)
      ["prog".toList, "--name=foo".toList] "--name=".toList (some "default".toList)
      (by decide) rfl 1 (by decide) "foo".toList (by decide)
      (fun j hj r hr => by
        have h0 : j = 0 := by omega
        subst h0
        exact hprog r hr)).2.2 "foo".toList (by decide) (by decide) (by decide)

/-! ## The memory: what is read -/

theorem Extends_refl (mem : Mem) : Extends mem mem := fun _ _ h => h

theorem Extends_trans {m1 m2 m3 : Mem} (h12 : Extends m1 m2) (h23 : Extends m2 m3) :
    Extends m1 m3 := fun a obj h => h23 a obj (h12 a obj h)

theorem Extends_append (mem ext : Mem) : Extends mem (mem ++ ext) := by
  intro a obj h
  have hlt : a < mem.length := by
    by_contra hge
    have hle : mem.length ≤ a := Nat.le_of_not_lt hge
    rw [List.getElem?_eq_none hle] at h
    cases h
  rw [List.getElem?_append_left hlt]
  exact h

theorem Extends_length {mem mem1 : Mem} (h : Extends mem mem1) : mem.length ≤ mem1.length := by
  by_contra hlt
  have hpos : mem1.length < mem.length := by omega
  have h1 := h mem1.length (mem[mem1.length]) (List.getElem?_eq_getElem hpos)
  rw [List.getElem?_eq_none (le_refl _)] at h1
  cases h1

theorem PointsTo_mono {mem mem1 : Mem} (h : Extends mem mem1) {p : Ptr} {v : CPtr}
    (hp : PointsTo mem p v) : PointsTo mem1 p v := by
  rcases hp with hn | ⟨a, units, s, h1, h2, h3⟩
  · exact Or.inl hn
  · exact Or.inr ⟨a, units, s, h1, h2, h _ _ h3⟩

theorem HoldsVector_mono {mem mem1 : Mem} (h : Extends mem mem1) {argv : Addr}
    {V : List CPtr} (hV : HoldsVector mem argv V) : HoldsVector mem1 argv V := by
  obtain ⟨ps, h1, h2⟩ := hV
  exact ⟨ps, h _ _ h1, h2.imp (fun _ _ hp => PointsTo_mono h hp)⟩

theorem SlotHolds_mono {mem mem1 : Mem} (h : Extends mem mem1) {slot : Option Ptr}
    {v : Option CPtr} (hs : SlotHolds mem slot v) : SlotHolds mem1 slot v := by
  rcases hs with hn | ⟨p, w, h1, h2, h3⟩
  · exact Or.inl hn
  · exact Or.inr ⟨p, w, h1, h2, PointsTo_mono h h3⟩

theorem HoldsQuery_mono {F : Type} {mem mem1 : Mem} (h : Extends mem mem1) {c : Call F}
    {q : Query F} (hq : HoldsQuery mem c q) : HoldsQuery mem1 c q := by
  cases c <;> cases q <;> simp only [HoldsQuery] at hq ⊢
  · exact PointsTo_mono h hq
  · exact ⟨PointsTo_mono h hq.1, hq.2⟩
  · exact ⟨PointsTo_mono h hq.1, hq.2⟩
  · exact ⟨PointsTo_mono h hq.1, PointsTo_mono h hq.2⟩
  · exact hq

theorem loadString_of_PointsTo {mem : Mem} {p : Ptr} {v : CPtr} (hp : PointsTo mem p v) :
    loadString mem p = deref v := by
  rcases hp with ⟨rfl, rfl⟩ | ⟨a, units, s, rfl, rfl, h3⟩
  · rfl
  · simp [loadString, h3, deref]

theorem loadChar_of_PointsTo {mem : Mem} {p : Ptr} {v : CPtr} (hp : PointsTo mem p v)
    (i : Nat) : loadChar mem p i = charAt v i := by
  rw [loadChar, loadString_of_PointsTo hp]
  cases v <;> rfl

theorem PointsTo_null_iff {mem : Mem} {p : Ptr} {v : CPtr} (hp : PointsTo mem p v) :
    p ≠ none ↔ v ≠ none := by
  rcases hp with ⟨rfl, rfl⟩ | ⟨a, units, s, rfl, rfl, -⟩ <;> simp

theorem Forall₂_index {α β : Type} {R : α → β → Prop} {l1 : List α} {l2 : List β}
    (h : List.Forall₂ R l1 l2) :
    ∀ n : Nat, (l1[n]? = none ∧ l2[n]? = none) ∨ ∃ x y, l1[n]? = some x ∧ l2[n]? = some y ∧ R x y := by
  induction h with
  | nil => intro n; exact Or.inl ⟨rfl, rfl⟩
  | cons hxy _ ih =>
    intro n
    cases n with
    | zero => exact Or.inr ⟨_, _, List.getElem?_cons_zero, List.getElem?_cons_zero, hxy⟩
    | succ m => simpa using ih m

/-- The read of `argv[n]` in a memory holding the vector `V`: out of the vector
in both, or a pointer that designates the token `V[n]`. -/
theorem loadSlot_of_HoldsVector {mem : Mem} {argv : Addr} {V : List CPtr}
    (hV : HoldsVector mem argv V) (n : Nat) :
    (loadSlot mem argv n = .error .argvOutOfBounds ∧ readArgv V n = .error .argvOutOfBounds) ∨
    ∃ p v, loadSlot mem argv n = .ok p ∧ readArgv V n = .ok v ∧ PointsTo mem p v := by
  obtain ⟨ps, h1, h2⟩ := hV
  rcases Forall₂_index h2 n with ⟨hn1, hn2⟩ | ⟨p, v, hp, hv, hpv⟩
  · left
    simp [loadSlot, h1, readArgv, hn1, hn2]
  · right
    refine ⟨p, v, ?_, ?_, hpv⟩
    · simp [loadSlot, h1, hp]
    · simp [readArgv, hv]

theorem OnMem_ParseFlag_loop_eq {mem : Mem} {argv : Addr} {V : List CPtr}
    (hV : HoldsVector mem argv V) {flag : Ptr} {f : CPtr} (hf : PointsTo mem flag f) :
    ∀ left n, OnMem.ParseFlag.loop mem argv flag left n = ParseFlag.loop V f left n := by
  intro left
  induction left with
  | zero => intro n; rfl
  | succ l ih =>
    intro n
    rcases loadSlot_of_HoldsVector hV n with ⟨h1, h2⟩ | ⟨p, v, h1, h2, hp⟩
    · simp only [OnMem.ParseFlag.loop, ParseFlag.loop, h1, h2]
    · simp only [OnMem.ParseFlag.loop, ParseFlag.loop, h1, h2, loadString_of_PointsTo hp,
        loadString_of_PointsTo hf, ih]

theorem OnMem_ParseValue_loop_eq {α : Type} (scan : Scanner α) {mem : Mem} {argv : Addr}
    {V : List CPtr} (hV : HoldsVector mem argv V) {arg : Ptr} {a : CPtr}
    (ha : PointsTo mem arg a) (orelse : α) :
    ∀ left n retval, OnMem.ParseValue.loop scan mem argv arg orelse left n retval
      = ParseFloat.loop scan V a orelse left n retval := by
  intro left
  induction left with
  | zero => intro n retval; rfl
  | succ l ih =>
    intro n retval
    rcases loadSlot_of_HoldsVector hV n with ⟨h1, h2⟩ | ⟨p, v, h1, h2, hp⟩
    · simp only [OnMem.ParseValue.loop, ParseFloat.loop, h1, h2]
    · simp only [OnMem.ParseValue.loop, ParseFloat.loop, h1, h2, loadString_of_PointsTo hp,
        loadString_of_PointsTo ha, ih]

theorem OnMem_CountArgs_loop_eq {mem : Mem} {argv : Addr} {V : List CPtr}
    (hV : HoldsVector mem argv V) :
    ∀ left n retval, OnMem.CountArgs.loop mem argv left n retval
      = CountArgs.loop V left n retval := by
  intro left
  induction left with
  | zero => intro n retval; rfl
  | succ l ih =>
    intro n retval
    rcases loadSlot_of_HoldsVector hV n with ⟨h1, h2⟩ | ⟨p, v, h1, h2, hp⟩
    · simp only [OnMem.CountArgs.loop, CountArgs.loop, h1, h2]
    · simp only [OnMem.CountArgs.loop, CountArgs.loop, h1, h2, loadChar_of_PointsTo hp, ih]
      rcases charAt v 0 with e | c
      · rfl
      · dsimp only
        have hiff : (c ≠ '-' ∧ p ≠ none) ↔ (c ≠ '-' ∧ v ≠ none) := by
          rw [PointsTo_null_iff hp]
        by_cases hc : c ≠ '-' ∧ v ≠ none
        · rw [if_pos hc, if_pos (hiff.mpr hc)]
        · rw [if_neg hc, if_neg (fun h => hc (hiff.mp h))]




/-! ## The memory: what is written -/

theorem fresh_getElem? (mem : Mem) (obj : Obj) : (mem ++ [obj])[mem.length]? = some obj := by
  simp

theorem fresh_set (mem : Mem) (obj obj1 : Obj) :
    (mem ++ [obj]).set mem.length obj1 = mem ++ [obj1] := by
  simp

/-- The store of a scanned text into the fresh block of `ParseString` is the
store of the logical model. -/
theorem storeChars_fresh (mem : Mem) (buf : Option CStr) (r : ScanResult CStr) :
    storeChars (mem ++ [.chars bufferUnits buf]) mem.length r
      = Except.map (fun buf1 => mem ++ [Obj.chars bufferUnits buf1]) (storeText r buf) := by
  unfold storeChars storeText
  cases r.stored with
  | none => rfl
  | some t =>
    simp only [fresh_getElem?]
    by_cases h : t.length + 1 ≤ bufferUnits
    · rw [if_pos h, if_pos h, fresh_set]; rfl
    · rw [if_neg h, if_neg h]; rfl

/-- The loop of `ParseString` on a memory holding the vector, with its fresh
block at the end, does what the loop on the logical vector does. -/
theorem OnMem_ParseString_loop_refines (scan : Scanner CStr) {mem : Mem} {argv : Addr}
    {V : List CPtr} (hV : HoldsVector mem argv V) {arg : Ptr} {a : CPtr}
    (ha : PointsTo mem arg a) (orelse : Ptr) (D : CPtr) :
    ∀ left n buf,
      (∀ e, ParseString.loop scan V a D left n buf = .error e →
        OnMem.ParseString.loop scan argv arg orelse mem.length left n
          (mem ++ [.chars bufferUnits buf]) = .error e) ∧
      (∀ t, ParseString.loop scan V a D left n buf = .ok (.buffer t) →
        OnMem.ParseString.loop scan argv arg orelse mem.length left n
          (mem ++ [.chars bufferUnits buf])
          = .ok (some mem.length, mem ++ [.chars bufferUnits t])) ∧
      (∀ D1, ParseString.loop scan V a D left n buf = .ok (.default D1) →
        ∃ buf1, OnMem.ParseString.loop scan argv arg orelse mem.length left n
          (mem ++ [.chars bufferUnits buf]) = .ok (orelse, mem ++ [.chars bufferUnits buf1])) := by
  intro left
  induction left with
  | zero =>
    intro n buf
    refine ⟨fun e h => ?_, fun t h => ?_, fun D1 _ => ⟨buf, rfl⟩⟩
    · simp [ParseString.loop] at h
    · simp [ParseString.loop] at h
  | succ l ih =>
    intro n buf
    have hext := Extends_append mem [Obj.chars bufferUnits buf]
    have hV1 := HoldsVector_mono hext hV
    have ha1 := PointsTo_mono hext ha
    rcases loadSlot_of_HoldsVector hV1 n with ⟨h1, h2⟩ | ⟨p, v, h1, h2, hp⟩
    · simp [ParseString.loop, OnMem.ParseString.loop, h1, h2]
    · simp only [ParseString.loop, OnMem.ParseString.loop, h1, h2, loadString_of_PointsTo hp,
        loadString_of_PointsTo ha1, storeChars_fresh]
      rcases deref v with e | s
      · simp
      · rcases deref a with e | f
        · simp
        · rcases hs : scan s f with e | r
          · simp [hs]
          · simp only [hs]
            rcases hst : storeText r buf with e | buf1
            · simp [hst, Except.map]
            · simp only [hst, Except.map]
              by_cases hr : r.ret = 1
              · simp [hr]
              · simp only [if_neg hr]
                exact ih (n + 1) buf1

theorem storeSlot_fresh (mem : Mem) (slots : List (Option Ptr)) (k : Nat) (p : Ptr) :
    storeSlot (mem ++ [.pointers slots]) mem.length k p
      = if k < slots.length then .ok (mem ++ [.pointers (slots.set k (some p))])
        else .error (.storeOutOfBounds k slots.length) := by
  unfold storeSlot
  simp only [fresh_getElem?, fresh_set]

theorem Forall₂_set {α β : Type} {R : α → β → Prop} {l1 : List α} {l2 : List β}
    (h : List.Forall₂ R l1 l2) {x : α} {y : β} (hxy : R x y) :
    ∀ k, List.Forall₂ R (l1.set k x) (l2.set k y) := by
  induction h with
  | nil => intro k; exact List.Forall₂.nil
  | cons h1 h2 ih =>
    intro k
    cases k with
    | zero => exact List.Forall₂.cons hxy h2
    | succ m => exact List.Forall₂.cons h1 (ih m)

/-- The loop of `GetArgs` on a memory holding the vector, with its fresh block
at the end, does what the loop on the logical vector does. -/
theorem OnMem_GetArgs_loop_refines {mem : Mem} {argv : Addr} {V : List CPtr}
    (hV : HoldsVector mem argv V) :
    ∀ left n k (slots : List (Option Ptr)) (b : Block),
      List.Forall₂ (SlotHolds mem) slots b →
      (∀ e, GetArgs.loop V left n k b = .error e →
        OnMem.GetArgs.loop argv mem.length left n k (mem ++ [.pointers slots]) = .error e) ∧
      (∀ k1 b1, GetArgs.loop V left n k b = .ok (k1, b1) →
        ∃ slots1, OnMem.GetArgs.loop argv mem.length left n k (mem ++ [.pointers slots])
            = .ok (mem ++ [.pointers slots1]) ∧
          List.Forall₂ (SlotHolds mem) slots1 b1) := by
  intro left
  induction left with
  | zero =>
    intro n k slots b hb
    refine ⟨fun e h => ?_, fun k1 b1 h => ?_⟩
    · simp [GetArgs.loop] at h
    · simp only [GetArgs.loop, Except.ok.injEq, Prod.mk.injEq] at h
      obtain ⟨-, rfl⟩ := h
      exact ⟨slots, rfl, hb⟩
  | succ l ih =>
    intro n k slots b hb
    have hext := Extends_append mem [Obj.pointers slots]
    have hV1 := HoldsVector_mono hext hV
    rcases loadSlot_of_HoldsVector hV1 n with ⟨h1, h2⟩ | ⟨p, v, h1, h2, hp1⟩
    · simp [GetArgs.loop, OnMem.GetArgs.loop, h1, h2]
    · have hp : PointsTo mem p v := by
        obtain ⟨ps, hm, hf⟩ := hV
        obtain ⟨ps1, hm1, -⟩ := hV1
        rcases Forall₂_index hf n with ⟨-, hn2⟩ | ⟨p0, v0, hp0, hv0, hpv⟩
        · simp [readArgv, hn2] at h2
        · have e1 : v0 = v := by
            simp [readArgv, hv0] at h2
            exact h2
          have e2 : p0 = p := by
            have := hext _ _ hm
            simp [loadSlot, this, hp0] at h1
            exact h1
          subst e1 e2
          exact hpv
      simp only [GetArgs.loop, OnMem.GetArgs.loop, h1, h2, loadChar_of_PointsTo hp1,
        storeSlot_fresh, Block.store]
      rcases charAt v 0 with e | c
      · simp
      · dsimp only
        have hiff : (c ≠ '-' ∧ p ≠ none) ↔ (c ≠ '-' ∧ v ≠ none) := by
          rw [PointsTo_null_iff hp]
        have hlen := hb.length_eq
        by_cases hc : c ≠ '-' ∧ v ≠ none
        · rw [if_pos hc, if_pos (hiff.mpr hc)]
          by_cases hk : k < b.length
          · rw [if_pos hk, if_pos (by rw [hlen]; exact hk)]
            dsimp only
            exact ih (n + 1) (k + 1) _ _
              (Forall₂_set hb (Or.inr ⟨p, v, rfl, rfl, hp⟩) k)
          · rw [if_neg hk, if_neg (by rw [hlen]; exact hk)]
            simp [hlen]
        · rw [if_neg hc, if_neg (fun h => hc (hiff.mp h))]
          exact ih (n + 1) k slots b hb




/-! ## The memory: what is left alone -/

theorem storeChars_frame {m m1 : Mem} {b : Addr} {r : ScanResult CStr}
    (h : storeChars m b r = .ok m1) :
    m1.length = m.length ∧ ∀ a : Addr, a ≠ b → m1[a]? = m[a]? := by
  unfold storeChars at h
  split at h
  · injection h with h; subst h; exact ⟨rfl, fun _ _ => rfl⟩
  · split at h
    · split at h
      · injection h with h
        subst h
        exact ⟨List.length_set _ _ _, fun a ha => List.getElem?_set_ne (Ne.symm ha)⟩
      · cases h
    · cases h

theorem storeSlot_frame {m m1 : Mem} {b : Addr} {k : Nat} {p : Ptr}
    (h : storeSlot m b k p = .ok m1) :
    m1.length = m.length ∧ ∀ a : Addr, a ≠ b → m1[a]? = m[a]? := by
  unfold storeSlot at h
  split at h
  · split at h
    · injection h with h
      subst h
      exact ⟨List.length_set _ _ _, fun a ha => List.getElem?_set_ne (Ne.symm ha)⟩
    · cases h
  · cases h

/-- The loop of `ParseString` writes in the block `retval` and nowhere else. -/
theorem OnMem_ParseString_loop_frame (scan : Scanner CStr) (argv : Addr) (arg orelse : Ptr)
    (b : Addr) :
    ∀ left n (m : Mem) (p : Ptr) (m1 : Mem),
      OnMem.ParseString.loop scan argv arg orelse b left n m = .ok (p, m1) →
      m1.length = m.length ∧ ∀ a : Addr, a ≠ b → m1[a]? = m[a]? := by
  intro left
  induction left with
  | zero =>
    intro n m p m1 h
    simp only [OnMem.ParseString.loop, Except.ok.injEq, Prod.mk.injEq] at h
    obtain ⟨-, rfl⟩ := h
    exact ⟨rfl, fun _ _ => rfl⟩
  | succ l ih =>
    intro n m p m1 h
    simp only [OnMem.ParseString.loop] at h
    split at h
    · cases h
    · split at h
      · cases h
      · split at h
        · cases h
        · split at h
          · cases h
          · split at h
            · cases h
            · rename_i mem2 hst
              obtain ⟨hl, hf⟩ := storeChars_frame hst
              split at h
              · simp only [Except.ok.injEq, Prod.mk.injEq] at h
                obtain ⟨-, rfl⟩ := h
                exact ⟨hl, hf⟩
              · obtain ⟨hl2, hf2⟩ := ih _ _ _ _ h
                exact ⟨hl2.trans hl, fun a ha => (hf2 a ha).trans (hf a ha)⟩

/-- The loop of `GetArgs` writes in the block `arg_array` and nowhere else. -/
theorem OnMem_GetArgs_loop_frame (argv b : Addr) :
    ∀ left n k (m m1 : Mem),
      OnMem.GetArgs.loop argv b left n k m = .ok m1 →
      m1.length = m.length ∧ ∀ a : Addr, a ≠ b → m1[a]? = m[a]? := by
  intro left
  induction left with
  | zero =>
    intro n k m m1 h
    simp only [OnMem.GetArgs.loop, Except.ok.injEq] at h
    subst h
    exact ⟨rfl, fun _ _ => rfl⟩
  | succ l ih =>
    intro n k m m1 h
    simp only [OnMem.GetArgs.loop] at h
    split at h
    · cases h
    · split at h
      · cases h
      · split at h
        · split at h
          · cases h
          · rename_i mem2 hst
            obtain ⟨hl, hf⟩ := storeSlot_frame hst
            obtain ⟨hl2, hf2⟩ := ih _ _ _ _ h
            exact ⟨hl2.trans hl, fun a ha => (hf2 a ha).trans (hf a ha)⟩
        · exact ih _ _ _ _ h

/-- A memory that differs from `mem` followed by one block in that block only
extends `mem`. -/
theorem Extends_of_frame {mem m1 : Mem} {obj : Obj}
    (hf : ∀ a : Addr, a ≠ mem.length → m1[a]? = (mem ++ [obj])[a]?) : Extends mem m1 := by
  intro a o h
  have hlt : a < mem.length := by
    by_contra hge
    rw [List.getElem?_eq_none (Nat.le_of_not_lt hge)] at h
    cases h
  rw [hf a (Nat.ne_of_lt hlt), List.getElem?_append_left hlt]
  exact h

theorem OnMem_ParseString_frame {malloc : Nat → Bool} {scan : Scanner CStr} {mem mem1 : Mem}
    {argc : Int} {argv : Addr} {arg orelse p : Ptr}
    (h : OnMem.ParseString malloc scan mem argc argv arg orelse = .ok (p, mem1)) :
    Extends mem mem1 := by
  unfold OnMem.ParseString at h
  split at h
  · exact Extends_of_frame (OnMem_ParseString_loop_frame _ _ _ _ _ _ _ _ _ _ h).2
  · simp only [Except.ok.injEq, Prod.mk.injEq] at h
    obtain ⟨-, rfl⟩ := h
    exact Extends_refl _

theorem OnMem_GetArgs_frame {malloc : Nat → Bool} {mem mem1 : Mem} {argc : Int}
    {argv : Addr} {ArgCount : Int} {p : Ptr}
    (h : OnMem.GetArgs malloc mem argc argv ArgCount = .ok (p, mem1)) :
    Extends mem mem1 := by
  unfold OnMem.GetArgs at h
  split at h
  · split at h
    · cases h
    · rename_i m2 hloop
      simp only [Except.ok.injEq, Prod.mk.injEq] at h
      obtain ⟨-, rfl⟩ := h
      exact Extends_of_frame (OnMem_GetArgs_loop_frame _ _ _ _ _ _ _ hloop).2
  · simp only [Except.ok.injEq, Prod.mk.injEq] at h
    obtain ⟨-, rfl⟩ := h
    exact Extends_refl _

/-- A call, whatever its arguments, leaves every object of the memory as it
was; it may add a block. -/
theorem Call_run_frame {F : Type} (env : Env F) (argc : Int) (argv : Addr) (c : Call F)
    (calls : Nat) (mem : Mem) (v : Value F) (calls1 : Nat) (mem1 : Mem)
    (h : Call.run env argc argv c calls mem = .ok (v, calls1, mem1)) :
    Extends mem mem1 := by
  cases c with
  | parseFlag flag =>
    simp only [Call.run, OnMem.ParseFlag] at h
    split at h
    · cases h
    · rename_i v1 m1 h1
      split at h1
      · cases h1
      · simp only [Except.ok.injEq, Prod.mk.injEq] at h1 h
        obtain ⟨-, rfl⟩ := h1
        obtain ⟨-, -, rfl⟩ := h
        exact Extends_refl _
  | parseInt arg orelse =>
    simp only [Call.run, OnMem.ParseInt] at h
    split at h
    · cases h
    · rename_i v1 m1 h1
      split at h1
      · cases h1
      · simp only [Except.ok.injEq, Prod.mk.injEq] at h1 h
        obtain ⟨-, rfl⟩ := h1
        obtain ⟨-, -, rfl⟩ := h
        exact Extends_refl _
  | parseFloat arg orelse =>
    simp only [Call.run, OnMem.ParseFloat] at h
    split at h
    · cases h
    · rename_i v1 m1 h1
      split at h1
      · cases h1
      · simp only [Except.ok.injEq, Prod.mk.injEq] at h1 h
        obtain ⟨-, rfl⟩ := h1
        obtain ⟨-, -, rfl⟩ := h
        exact Extends_refl _
  | parseString arg orelse =>
    simp only [Call.run] at h
    split at h
    · cases h
    · rename_i p m1 h1
      simp only [Except.ok.injEq, Prod.mk.injEq] at h
      obtain ⟨-, -, rfl⟩ := h
      exact OnMem_ParseString_frame h1
  | countArgs =>
    simp only [Call.run, OnMem.CountArgs] at h
    split at h
    · cases h
    · rename_i v1 m1 h1
      split at h1
      · cases h1
      · simp only [Except.ok.injEq, Prod.mk.injEq] at h1 h
        obtain ⟨-, rfl⟩ := h1
        obtain ⟨-, -, rfl⟩ := h
        exact Extends_refl _
  | getArgs ArgCount =>
    simp only [Call.run] at h
    split at h
    · cases h
    · rename_i p m1 h1
      simp only [Except.ok.injEq, Prod.mk.injEq] at h
      obtain ⟨-, -, rfl⟩ := h
      exact OnMem_GetArgs_frame h1

/-- Calls in sequence, whatever they are, leave every object of the memory as
it was. -/
theorem runCalls_frame {F : Type} (env : Env F) (argc : Int) (argv : Addr)
    (cs : List (Call F)) :
    ∀ (calls : Nat) (mem : Mem) (calls1 : Nat) (mem1 : Mem),
      runCalls env argc argv cs calls mem = .ok (calls1, mem1) → Extends mem mem1 := by
  induction cs with
  | nil =>
    intro calls mem calls1 mem1 h
    simp only [runCalls, Except.ok.injEq, Prod.mk.injEq] at h
    obtain ⟨-, rfl⟩ := h
    exact Extends_refl _
  | cons c cs ih =>
    intro calls mem calls1 mem1 h
    simp only [runCalls] at h
    split at h
    · cases h
    · rename_i v c2 m2 hrun
      exact Extends_trans (Call_run_frame env argc argv c calls mem _ _ _ hrun) (ih _ _ _ _ h)




/-! ## Calls on the memory compute the logical results -/

theorem ParseString_loop_default (scan : Scanner CStr) (V : List CPtr) (a D : CPtr) :
    ∀ left n buf D1, ParseString.loop scan V a D left n buf = .ok (.default D1) → D1 = D := by
  intro left
  induction left with
  | zero =>
    intro n buf D1 h
    simp only [ParseString.loop, Except.ok.injEq, StringResult.default.injEq] at h
    exact h.symm
  | succ l ih =>
    intro n buf D1 h
    simp only [ParseString.loop] at h
    split at h
    · cases h
    · split at h
      · cases h
      · split at h
        · cases h
        · split at h
          · cases h
          · split at h
            · cases h
            · split at h
              · cases h
              · exact ih _ _ _ h

theorem Forall₂_replicate_none (mem : Mem) (n : Nat) :
    List.Forall₂ (SlotHolds mem) (List.replicate n none) (List.replicate n none) := by
  induction n with
  | zero => exact List.Forall₂.nil
  | succ m ih => exact List.Forall₂.cons (Or.inl ⟨rfl, rfl⟩) ih

theorem Represents_mono {F : Type} {mem mem1 : Mem} (h : Extends mem mem1) {v : Value F}
    {a : Logical F} (hr : Represents mem v a) : Represents mem1 v a := by
  cases v with
  | int x => cases a <;> exact hr
  | float x => cases a <;> exact hr
  | pointer p =>
    cases a with
    | int x => simp only [Represents] at hr
    | float x => simp only [Represents] at hr
    | text r =>
      cases r with
      | default D =>
        simp only [Represents] at hr ⊢
        exact PointsTo_mono h hr
      | buffer t =>
        simp only [Represents] at hr ⊢
        obtain ⟨b, units, hp, hm⟩ := hr
        exact ⟨b, units, hp, h _ _ hm⟩
    | block r =>
      cases r with
      | none => simp only [Represents] at hr ⊢; exact hr
      | some blk =>
        simp only [Represents] at hr ⊢
        obtain ⟨b, slots, hp, hm, hf⟩ := hr
        exact ⟨b, slots, hp, h _ _ hm, hf.imp (fun _ _ hs => SlotHolds_mono h hs)⟩

/-- A call on a memory that holds the vector and the arguments of a query
faults when the query does on the logical vector, and otherwise returns a
value that denotes the logical result of the query; a text or a sequence of
its own is in the block added at the end of the memory. -/
theorem Call_run_refines {F : Type} (env : Env F) {mem : Mem} {argv : Addr} {V : List CPtr}
    (hV : HoldsVector mem argv V) {c : Call F} {q : Query F} (hq : HoldsQuery mem c q)
    (argc : Int) (calls : Nat) :
    (∀ e, Query.answer env argc V q (Query.allocOk env q calls) = .error e →
      Call.run env argc argv c calls mem = .error e) ∧
    (∀ a, Query.answer env argc V q (Query.allocOk env q calls) = .ok a →
      ∃ v calls1 mem1, Call.run env argc argv c calls mem = .ok (v, calls1, mem1) ∧
        Represents mem1 v a ∧
        (((∃ t, a = .text (.buffer t)) ∨ (∃ blk, a = .block (some blk))) →
          v = .pointer (some mem.length))) := by
  cases c with
  | parseFlag flag =>
    cases q <;> simp only [HoldsQuery] at hq
    rename_i f
    simp only [Query.answer, Call.run, OnMem.ParseFlag, ParseFlag,
      OnMem_ParseFlag_loop_eq hV hq]
    rcases ParseFlag.loop V f argc.toNat 0 with e | x
    · simp [Except.map]
    · simp [Except.map]
      exact ⟨_, _, _, ⟨rfl, rfl, rfl⟩, rfl⟩
  | parseInt arg orelse =>
    cases q <;> simp only [HoldsQuery] at hq
    rename_i a o
    obtain ⟨ha, rfl⟩ := hq
    simp only [Query.answer, Call.run, OnMem.ParseInt, ParseInt,
      OnMem_ParseValue_loop_eq env.scanInt hV ha, ParseFloat_loop_eq_ParseInt_loop]
    rcases ParseInt.loop env.scanInt V a orelse argc.toNat 0 none with e | x
    · simp [Except.map]
    · simp [Except.map]
      exact ⟨_, _, _, ⟨rfl, rfl, rfl⟩, rfl⟩
  | parseFloat arg orelse =>
    cases q <;> simp only [HoldsQuery] at hq
    rename_i a o
    obtain ⟨ha, rfl⟩ := hq
    simp only [Query.answer, Call.run, OnMem.ParseFloat, ParseFloat,
      OnMem_ParseValue_loop_eq env.scanFloat hV ha]
    rcases ParseFloat.loop env.scanFloat V a orelse argc.toNat 0 none with e | x
    · simp [Except.map]
    · simp [Except.map]
      exact ⟨_, _, _, ⟨rfl, rfl, rfl⟩, rfl⟩
  | countArgs =>
    cases q <;> simp only [HoldsQuery] at hq
    simp only [Query.answer, Call.run, OnMem.CountArgs, CountArgs, OnMem_CountArgs_loop_eq hV]
    rcases CountArgs.loop V (argc - 1).toNat 1 0 with e | x
    · simp [Except.map]
    · simp [Except.map]
      exact ⟨_, _, _, ⟨rfl, rfl, rfl⟩, rfl⟩
  | parseString arg orelse =>
    cases q <;> simp only [HoldsQuery] at hq
    rename_i a o
    obtain ⟨ha, ho⟩ := hq
    simp only [Query.answer, Call.run, OnMem.ParseString, ParseString, Query.allocOk,
      Query.request]
    by_cases hm : env.mallocOk calls (bufferUnits * 1) = true
    · simp only [hm, if_true]
      obtain ⟨he, hb, hd⟩ :=
        OnMem_ParseString_loop_refines env.scanStr hV ha orelse o argc.toNat 0 none
      rcases hl : ParseString.loop env.scanStr V a o argc.toNat 0 none with e | r
      · rw [he e hl]
        simp [Except.map]
      · cases r with
        | buffer t =>
          rw [hb t hl]
          refine ⟨by simp [Except.map], ?_⟩
          intro x hx
          simp only [Except.map, Except.ok.injEq] at hx
          subst hx
          exact ⟨_, _, _, rfl, ⟨mem.length, bufferUnits, rfl, fresh_getElem? _ _⟩, fun _ => rfl⟩
        | default D1 =>
          obtain ⟨buf1, hrun⟩ := hd D1 hl
          have hD := ParseString_loop_default _ _ _ _ _ _ _ _ hl
          subst hD
          rw [hrun]
          refine ⟨by simp [Except.map], ?_⟩
          intro x hx
          simp only [Except.map, Except.ok.injEq] at hx
          subst hx
          refine ⟨_, _, _, rfl, PointsTo_mono (Extends_append _ _) ho, ?_⟩
          rintro (⟨t, ht⟩ | ⟨blk, hblk⟩)
          · cases ht
          · cases hblk
    · simp only [hm, Bool.false_eq_true, if_false]
      refine ⟨by simp [Except.map], ?_⟩
      intro x hx
      simp only [Except.map, Except.ok.injEq] at hx
      subst hx
      refine ⟨_, _, _, rfl, ho, ?_⟩
      rintro (⟨t, ht⟩ | ⟨blk, hblk⟩)
      · cases ht
      · cases hblk
  | getArgs ArgCount =>
    cases q <;> simp only [HoldsQuery] at hq
    rename_i A
    subst hq
    simp only [Query.answer, Call.run, OnMem.GetArgs, GetArgs, Query.allocOk, Query.request]
    by_cases hm : env.mallocOk calls (requestBytes ArgCount) = true
    · simp only [hm, if_true]
      obtain ⟨he, hok⟩ := OnMem_GetArgs_loop_refines hV (argc - 1).toNat 1 0
        (List.replicate (requestBytes ArgCount / pointerSize) none)
        (List.replicate (requestBytes ArgCount / pointerSize) none)
        (Forall₂_replicate_none mem _)
      rcases hl : GetArgs.loop V (argc - 1).toNat 1 0
          (List.replicate (requestBytes ArgCount / pointerSize) none) with e | r
      · rw [he e hl]
        simp [Except.map]
      · obtain ⟨k1, b1⟩ := r
        obtain ⟨slots1, hrun, hf⟩ := hok k1 b1 hl
        rw [hrun]
        refine ⟨by simp [Except.map], ?_⟩
        intro x hx
        simp only [Except.map, Except.ok.injEq] at hx
        subst hx
        exact ⟨_, _, _, rfl,
          ⟨mem.length, slots1, rfl, fresh_getElem? _ _,
            hf.imp (fun _ _ hs => SlotHolds_mono (Extends_append _ _) hs)⟩, fun _ => rfl⟩
    · simp only [hm, Bool.false_eq_true, if_false]
      refine ⟨by simp [Except.map], ?_⟩
      intro x hx
      simp only [Except.map, Except.ok.injEq] at hx
      subst hx
      refine ⟨_, _, _, rfl, rfl, ?_⟩
      rintro (⟨t, ht⟩ | ⟨blk, hblk⟩)
      · cases ht
      · cases hblk




/-! ## Queries repeated -/

/-- Counterexample to C13 as stated: the same call of `ParseString`, with the
same vector, pattern and default, run twice in a row on a heap whose first
allocation succeeds and whose second fails: the first call returns a new block
holding `foo`, the second the pointer to `default`. -/
theorem Call_not_pure_counterexample :
    Call.run scarceEnv 2 4 (.parseString (some 2) (some 3)) 0 exampleMem
      = .ok (.pointer (some 5), 1,
          exampleMem ++ [.chars 1024 (some "foo".toList)]) ∧
    Call.run scarceEnv 2 4 (.parseString (some 2) (some 3)) 1
        (exampleMem ++ [.chars 1024 (some "foo".toList)])
      = .ok (.pointer (some 3), 2,
          exampleMem ++ [.chars 1024 (some "foo".toList)]) ∧
    loadString (exampleMem ++ [.chars 1024 (some "foo".toList)]) (some 5)
      = .ok "foo".toList ∧
    loadString (exampleMem ++ [.chars 1024 (some "foo".toList)]) (some 3)
      = .ok "default".toList ∧
    Except.map StringOutcome.result
        (ParseString (fun _ => true) sscanfStr 2
          [some "prog".toList, some "--name=foo".toList]
          (some "--name=%s".toList) (some "default".toList))
      ≠ Except.map StringOutcome.result
        (ParseString (fun _ => false) sscanfStr 2
          [some "prog".toList, some "--name=foo".toList]
          (some "--name=%s".toList) (some "default".toList)) := by
  refine ⟨by decide, by decide, by decide, by decide, by decide⟩

/-- C13, amended. On a memory that holds the vector `V` and the arguments of a
query, a call that returns, followed by any calls that return, followed by the
same call again, the allocation request of the query, if it makes one, having
the same outcome in both: the second call returns too, both values denote the
same logical result, which is the one the query has on `V`; the value of the
first call still denotes it at the end, the memory still holds `V`, no object
of the memory has been changed, and a text or a sequence the two calls return
in blocks of their own is in two distinct blocks. -/
theorem Call_repeated_same_result {F : Type} (env : Env F) (argc : Int) (argv : Addr)
    (mem0 : Mem) (V : List CPtr) (hV : HoldsVector mem0 argv V) (c : Call F) (q : Query F)
    (hq : HoldsQuery mem0 c q) (between : List (Call F)) (calls0 : Nat)
    (v1 : Value F) (calls1 : Nat) (mem1 : Mem)
    (h1 : Call.run env argc argv c calls0 mem0 = .ok (v1, calls1, mem1))
    (calls2 : Nat) (mem2 : Mem)
    (hb : runCalls env argc argv between calls1 mem1 = .ok (calls2, mem2))
    (hsame : ∀ bytes, q.request = some bytes →
      env.mallocOk calls2 bytes = env.mallocOk calls0 bytes) :
    ∃ (a : Logical F) (v2 : Value F) (calls3 : Nat) (mem3 : Mem),
      Query.answer env argc V q (Query.allocOk env q calls0) = .ok a ∧
      Call.run env argc argv c calls2 mem2 = .ok (v2, calls3, mem3) ∧
      Represents mem1 v1 a ∧ Represents mem3 v2 a ∧ Represents mem3 v1 a ∧
      HoldsVector mem3 argv V ∧ Extends mem0 mem3 ∧
      (((∃ t, a = .text (.buffer t)) ∨ (∃ blk, a = .block (some blk))) → v1 ≠ v2) := by
  have hsame : Query.allocOk env q calls2 = Query.allocOk env q calls0 := by
    unfold Query.allocOk
    cases hreq : q.request with
    | none => rfl
    | some bytes => exact hsame bytes hreq
  obtain ⟨he0, hok0⟩ := Call_run_refines env hV hq argc calls0
  rcases hans : Query.answer env argc V q (Query.allocOk env q calls0) with e | a
  · rw [he0 e hans] at h1
    cases h1
  · obtain ⟨w1, c1, m1, hrun1, hrep1, hfresh1⟩ := hok0 a hans
    rw [hrun1] at h1
    simp only [Except.ok.injEq, Prod.mk.injEq] at h1
    obtain ⟨rfl, rfl, rfl⟩ := h1
    have hx01 := Call_run_frame env argc argv c calls0 mem0 _ _ _ hrun1
    have hx12 := runCalls_frame env argc argv between _ _ _ _ hb
    have hx02 := Extends_trans hx01 hx12
    obtain ⟨-, hok2⟩ := Call_run_refines env (HoldsVector_mono hx02 hV)
      (HoldsQuery_mono hx02 hq) argc calls2
    rw [hsame] at hok2
    obtain ⟨w2, c3, m3, hrun2, hrep2, hfresh2⟩ := hok2 a hans
    have hx23 := Call_run_frame env argc argv c calls2 mem2 _ _ _ hrun2
    have hx13 := Extends_trans hx12 hx23
    refine ⟨a, w2, c3, m3, rfl, hrun2, hrep1, hrep2, Represents_mono hx13 hrep1,
      HoldsVector_mono (Extends_trans hx02 hx23) hV, Extends_trans hx02 hx23, ?_⟩
    intro hf heq
    have e1 := hfresh1 hf
    have e2 := hfresh2 hf
    rw [e1, e2] at heq
    simp only [Value.pointer.injEq, Option.some.injEq] at heq
    have hlt : mem0.length < m1.length := by
      rw [e1] at hrep1
      rcases hf with ⟨t, rfl⟩ | ⟨blk, rfl⟩
      · simp only [Represents] at hrep1
        obtain ⟨b, units, hb1, hb2⟩ := hrep1
        simp only [Option.some.injEq] at hb1
        subst hb1
        by_contra hge
        rw [List.getElem?_eq_none (Nat.le_of_not_lt hge)] at hb2
        cases hb2
      · simp only [Represents] at hrep1
        obtain ⟨b, slots, hb1, hb2, -⟩ := hrep1
        simp only [Option.some.injEq] at hb1
        subst hb1
        by_contra hge
        rw [List.getElem?_eq_none (Nat.le_of_not_lt hge)] at hb2
        cases hb2
    have hle := Extends_length hx12
    have hne : mem0.length ≠ mem2.length := Nat.ne_of_lt (Nat.lt_of_lt_of_le hlt hle)
    exact hne heq

/-- Witness of the amended C13: on the example memory, `ParseString` with
`--name=%s`, then `CountArgs` and `GetArgs`, then `ParseString` again; the two
results are the blocks 5 and 7, both holding `foo`. -/
theorem Call_repeated_same_result_witness :
    ∃ (a : Logical Int) (v2 : Value Int) (calls3 : Nat) (mem3 : Mem),
      Query.answer plentyEnv 2 [some "prog".toList, some "--name=foo".toList]
          (.parseString (some "--name=%s".toList) (some "default".toList))
          (Query.allocOk plentyEnv
            (.parseString (some "--name=%s".toList) (some "default".toList)) 0) = .ok a ∧
      Call.run plentyEnv 2 4 (.parseString (some 2) (some 3)) 2
          (exampleMem ++ [.chars 1024 (some "foo".toList)] ++ [.pointers []])
        = .ok (v2, calls3, mem3) ∧
      Represents (exampleMem ++ [.chars 1024 (some "foo".toList)])
        (.pointer (some 5)) a ∧
      Represents mem3 v2 a ∧ Represents mem3 (.pointer (some 5)) a ∧
      HoldsVector mem3 4 [some "prog".toList, some "--name=foo".toList] ∧
      Extends exampleMem mem3 ∧
      (((∃ t, a = .text (.buffer t)) ∨ (∃ blk, a = .block (some blk))) →
        (Value.pointer (some 5) : Value Int) ≠ v2) :=
  Call_repeated_same_result plentyEnv 2 4 exampleMem
    [some "prog".toList, some "--name=foo".toList]
    ⟨[some 0, some 1], rfl,
      List.Forall₂.cons (Or.inr ⟨0, 5, "prog".toList, rfl, rfl, rfl⟩)
        (List.Forall₂.cons (Or.inr ⟨1, 11, "--name=foo".toList, rfl, rfl, rfl⟩)
          List.Forall₂.nil)⟩
    (.parseString (some 2) (some 3))
    (.parseString (some "--name=%s".toList) (some "default".toList))
    ⟨Or.inr ⟨2, 10, "--name=%s".toList, rfl, rfl, rfl⟩,
      Or.inr ⟨3, 8, "default".toList, rfl, rfl, rfl⟩⟩
    [.countArgs, .getArgs 0] 0
    (.pointer (some 5)) 1 (exampleMem ++ [.chars 1024 (some "foo".toList)]) (by decide)
    2 (exampleMem ++ [.chars 1024 (some "foo".toList)] ++ [.pointers []]) (by decide)
    (fun _ _ => rfl)

end Argparse
